import Mathlib

/-!
Shallow embedding of the gem5 O3 memory dependency unit
(`src/cpu/o3/mem_dep_unit.hh`).  The repository ships only the header; the
behavioural definitions of the member functions live in `mem_dep_unit.cc`,
which is not part of the sources here.  The data model below is taken from
the header; every operation is modelled from the specification document and
marked as such in its doc comment.

Entries are kept in an arena keyed by instruction sequence number: the
registry is a list of entries with pairwise distinct sequence numbers, and
producer-to-dependent edges (`MemDepEntry::dependInsts`) are lists of
sequence numbers.  Every operation returns the successor state together with
the list of instructions it signals issue-ready to the instruction queue
(the `moveToReady` path).
-/

namespace MemDep

/-- `InstSeqNum` from `cpu/inst_seq.hh`: a globally increasing identifier
assigned to instructions in program order. -/
abbrev InstSeqNum := Nat

/-- `ThreadID`: index of a hardware thread context. -/
abbrev ThreadID := Nat

/-- Modelled from the spec: `O3MaxThreads` comes from `cpu/o3/limits.hh`,
which is not under `src`; only its use as the fixed size of the per-thread
order-list array (`instList[O3MaxThreads]`, header line 228) is visible.
The concrete value is irrelevant to the theorems; it only has to be a fixed
positive bound. -/
def O3MaxThreads : Nat := 4

/-- The slice of a dynamic instruction (`O3DynInstPtr`, consumed as an opaque
handle per spec section 1) that the memory dependency unit reads: identity,
thread, memory-operation kind, barrier kind, and whether its source
registers are already available at insertion time. -/
structure DynInst where
  seqNum : InstSeqNum
  tid : ThreadID
  isLoad : Bool
  isStore : Bool
  isLoadBarrier : Bool
  isStoreBarrier : Bool
  readyRegs : Bool
deriving DecidableEq

/-- `MemDepUnit::MemDepEntry` (header lines 176-212): one node of the
dependency graph.  `dependInsts` holds the sequence numbers of the dependent
(consumer) entries, following the arena representation suggested by spec
section 9 (edge lists hold indices, the registry is the single owner).
Flag and counter defaults are the in-class initializers of the header
(lines 197-204). -/
structure MemDepEntry where
  instSN : InstSeqNum
  tid : ThreadID
  isLoad : Bool
  isStore : Bool
  isLoadBarrier : Bool
  isStoreBarrier : Bool
  dependInsts : List InstSeqNum
  regsReady : Bool
  memDeps : Int
  completed : Bool
  squashed : Bool
deriving DecidableEq

/-- Modelled from the spec: `MemDepEntry::MemDepEntry(const O3DynInstPtr &)`
(constructor body in the missing `mem_dep_unit.cc`).  It records the tracked
instruction; all flags and the dependency counter keep the header's in-class
initializer values (`regsReady = false`, `memDeps = 0`, `completed = false`,
`squashed = false`, empty `dependInsts`). -/
def mkMemDepEntry (inst : DynInst) : MemDepEntry :=
  { instSN := inst.seqNum
    tid := inst.tid
    isLoad := inst.isLoad
    isStore := inst.isStore
    isLoadBarrier := inst.isLoadBarrier
    isStoreBarrier := inst.isStoreBarrier
    dependInsts := []
    regsReady := false
    memDeps := 0
    completed := false
    squashed := false }

/-- The state of one `MemDepUnit` (header lines 84-274): the entry registry
(`memDepHash`), the per-thread order lists (`instList[O3MaxThreads]`), the
replay queue (`instsToReplay`), the two barrier sets, and the unit's thread
id (`int id`, set by `init`). -/
structure MemDepUnitState where
  id : ThreadID
  memDepHash : List MemDepEntry
  instList : List (List InstSeqNum)
  instsToReplay : List InstSeqNum
  loadBarrierSNs : List InstSeqNum
  storeBarrierSNs : List InstSeqNum
deriving DecidableEq

/-- Modelled from the spec: `MemDepUnit::init` (missing `mem_dep_unit.cc`)
leaves every collection empty and records the owning thread id. -/
def initState (tid : ThreadID) : MemDepUnitState :=
  { id := tid
    memDepHash := []
    instList := List.replicate O3MaxThreads []
    instsToReplay := []
    loadBarrierSNs := []
    storeBarrierSNs := [] }

/-- `MemDepUnit::findInHash` (header line 215): registry lookup by sequence
number. -/
def findInHash (st : MemDepUnitState) (sn : InstSeqNum) : Option MemDepEntry :=
  st.memDepHash.find? (fun e => decide (e.instSN = sn))

/-- Modelled from the spec (section 3 invariant, used by `moveToReady`,
header line 218): an entry is ready to issue iff its registers are ready,
its pending memory-dependency count is zero, and it is not squashed. -/
def readyToIssue (e : MemDepEntry) : Bool :=
  e.regsReady && decide (e.memDeps = 0) && !e.squashed

/-- Producers a newly inserted consumer is linked to: a candidate sequence
number is kept when a live (present, not completed, not squashed) entry for
it exists in the registry, per spec sections 4.1 and 4.3. -/
def prodKeep (cands : List InstSeqNum) (p : MemDepEntry) : Bool :=
  decide (p.instSN ∈ cands) && !p.completed && !p.squashed

/-- The fresh entry registered by `insertCore` for `inst`: constructor
defaults, except that `regsReady` takes the instruction's
operands-available flag (spec section 4.1) and `memDeps` counts the live
producers the entry is linked to. -/
def insertedEntry (st : MemDepUnitState) (inst : DynInst) (cands : List InstSeqNum) :
    MemDepEntry :=
  { mkMemDepEntry inst with
    regsReady := inst.readyRegs
    memDeps := (st.memDepHash.countP (prodKeep cands) : Int) }

/-- Linking pass of `insertCore`: every live producer candidate gets the
new consumer's sequence number appended to its `dependInsts`. -/
def insertLink (sn : InstSeqNum) (cands : List InstSeqNum) (p : MemDepEntry) :
    MemDepEntry :=
  if prodKeep cands p then { p with dependInsts := p.dependInsts ++ [sn] } else p

/-- Successor state of `insertCore`: linked registry plus the fresh entry,
and the new sequence number appended to its thread's order list. -/
def insertCoreState (st : MemDepUnitState) (inst : DynInst) (cands : List InstSeqNum) :
    MemDepUnitState :=
  { st with
    memDepHash :=
      (st.memDepHash.map (insertLink inst.seqNum cands)) ++ [insertedEntry st inst cands]
    instList :=
      st.instList.set inst.tid ((st.instList.getD inst.tid []) ++ [inst.seqNum]) }

/-- Modelled from the spec: the shared trunk of `MemDepUnit::insert`,
`insertNonSpec` and `insertBarrier` (missing `mem_dep_unit.cc`).  A fresh
entry is registered, appended to its thread's order list, and linked as a
dependent of every live producer candidate: each such producer gets the new
sequence number appended to `dependInsts`, and the new entry's `memDeps` is
the number of producers linked.  If the entry is ready at once (registers
available, no pending producer, not squashed) it is signaled to the issue
queue. -/
def insertCore (st : MemDepUnitState) (inst : DynInst) (cands : List InstSeqNum) :
    MemDepUnitState × List InstSeqNum :=
  (insertCoreState st inst cands,
   if readyToIssue (insertedEntry st inst cands) then [inst.seqNum] else [])

/-- Modelled from the spec: producer candidates of `MemDepUnit::insert`
(missing `mem_dep_unit.cc`): all outstanding load barriers for a load, all
outstanding store barriers for a store, plus the predictor's answer.  The
predictor itself is external (spec section 4.3); its reply for this
instruction is passed in as `pred`. -/
def insertCands (st : MemDepUnitState) (inst : DynInst) (pred : Option InstSeqNum) :
    List InstSeqNum :=
  (if inst.isLoad then st.loadBarrierSNs else []) ++
  (if inst.isStore then st.storeBarrierSNs else []) ++ pred.toList

/-- Modelled from the spec: `MemDepUnit::insert` (missing
`mem_dep_unit.cc`). -/
def insert (st : MemDepUnitState) (inst : DynInst) (pred : Option InstSeqNum) :
    MemDepUnitState × List InstSeqNum :=
  insertCore st inst (insertCands st inst pred)

/-- Modelled from the spec: `MemDepUnit::insertNonSpec` (missing
`mem_dep_unit.cc`) bypasses the predictor entirely; the instruction gets no
producer, so it is memory-ready immediately. -/
def insertNonSpec (st : MemDepUnitState) (inst : DynInst) :
    MemDepUnitState × List InstSeqNum :=
  insertCore st inst []

/-- Modelled from the spec: `MemDepUnit::insertBarrierSN` (header line 253,
body missing): records the barrier's sequence number in the barrier set(s)
matching its declared kind. -/
def insertBarrierSN (st : MemDepUnitState) (inst : DynInst) : MemDepUnitState :=
  { st with
    loadBarrierSNs :=
      if inst.isLoadBarrier then st.loadBarrierSNs ++ [inst.seqNum]
      else st.loadBarrierSNs
    storeBarrierSNs :=
      if inst.isStoreBarrier then st.storeBarrierSNs ++ [inst.seqNum]
      else st.storeBarrierSNs }

/-- Modelled from the spec: `MemDepUnit::insertBarrier` (missing
`mem_dep_unit.cc`): normal insertion plus barrier-set bookkeeping; a
barrier instruction carries no memory producer dependency.  (`insertCore`
never reads the barrier sets and `insertBarrierSN` only writes them, so the
order of the two sub-steps is immaterial.) -/
def insertBarrier (st : MemDepUnitState) (inst : DynInst) :
    MemDepUnitState × List InstSeqNum :=
  (insertBarrierSN (insertCore st inst []).1 inst, (insertCore st inst []).2)

/-- Modelled from the spec: `MemDepUnit::regsReady` (missing
`mem_dep_unit.cc`): set `regsReady` on the entry; if its memory
dependencies are satisfied and it is not squashed, signal it issue-ready. -/
def regsReadySet (sn : InstSeqNum) (reg : List MemDepEntry) : List MemDepEntry :=
  reg.map (fun x => if decide (x.instSN = sn) then { x with regsReady := true } else x)

def regsReadyOp (st : MemDepUnitState) (sn : InstSeqNum) :
    MemDepUnitState × List InstSeqNum :=
  match st.memDepHash.find? (fun e => decide (e.instSN = sn)) with
  | none => (st, [])
  | some e =>
    if readyToIssue { e with regsReady := true } then
      ({ st with memDepHash := regsReadySet sn st.memDepHash }, [sn])
    else
      ({ st with memDepHash := regsReadySet sn st.memDepHash }, [])

/-- Modelled from the spec: `MemDepUnit::nonSpecInstReady` (missing
`mem_dep_unit.cc`), specified identically to `regsReady` (spec section
4.1 treats the two as one bullet). -/
def nonSpecInstReadyOp (st : MemDepUnitState) (sn : InstSeqNum) :
    MemDepUnitState × List InstSeqNum :=
  regsReadyOp st sn

/-- Modelled from the spec: `MemDepUnit::reschedule` (missing
`mem_dep_unit.cc`): append the instruction to the replay queue without
altering dependency counts. -/
def reschedule (st : MemDepUnitState) (sn : InstSeqNum) : MemDepUnitState :=
  { st with instsToReplay := st.instsToReplay ++ [sn] }

/-- Modelled from the spec: `MemDepUnit::violation` (missing
`mem_dep_unit.cc`): inform the external predictor (outside this state) and
reschedule the violating load. -/
def violation (st : MemDepUnitState) (_storeSN loadSN : InstSeqNum) : MemDepUnitState :=
  reschedule st loadSN

/-- Modelled from the spec: `MemDepUnit::replay` (missing
`mem_dep_unit.cc`): drain the replay queue, re-signaling every contained
instruction issue-ready, then clear the queue. -/
def replayOp (st : MemDepUnitState) : MemDepUnitState × List InstSeqNum :=
  ({ st with instsToReplay := [] }, st.instsToReplay)

/-- Modelled from the spec: `MemDepUnit::issue` (missing
`mem_dep_unit.cc`): pure notification hook, mutates no dependency state. -/
def issueOp (st : MemDepUnitState) (_sn : InstSeqNum) : MemDepUnitState :=
  st

/-- Modelled from the spec: `MemDepUnit::takeOverFrom` (missing
`mem_dep_unit.cc`): reset the barrier sets; registry and order lists
persist. -/
def takeOverFrom (st : MemDepUnitState) : MemDepUnitState :=
  { st with loadBarrierSNs := [], storeBarrierSNs := [] }

/-- Decrement pass of completion: a dependent of the completed producer
loses one pending memory dependency. -/
def completeDecr (dep : List InstSeqNum) (e : MemDepEntry) : MemDepEntry :=
  if decide (e.instSN ∈ dep) then { e with memDeps := e.memDeps - 1 } else e

/-- Registry after completion of the entry keyed `sn` whose dependents are
`dep`: the completed producer is removed and every dependent still present
has its pending counter decremented. -/
def completeHash (reg : List MemDepEntry) (sn : InstSeqNum) (dep : List InstSeqNum) :
    List MemDepEntry :=
  (reg.filter (fun e => !decide (e.instSN = sn))).map (completeDecr dep)

/-- Dependents woken by a completion: members of the producer's
`dependInsts` list, in list order, whose surviving entry is now ready to
issue. -/
def completeWoken (reg : List MemDepEntry) (dep : List InstSeqNum) : List InstSeqNum :=
  dep.filter (fun c =>
    match reg.find? (fun e => decide (e.instSN = c)) with
    | some e => readyToIssue e
    | none => false)

/-- Successor state of a completion that found entry `p` for `sn`. -/
def completeState (st : MemDepUnitState) (sn : InstSeqNum) (p : MemDepEntry) :
    MemDepUnitState :=
  { st with
    memDepHash := completeHash st.memDepHash sn p.dependInsts
    instList := st.instList.set p.tid
      ((st.instList.getD p.tid []).filter (fun s => !decide (s = sn)))
    loadBarrierSNs := st.loadBarrierSNs.filter (fun s => !decide (s = sn))
    storeBarrierSNs := st.storeBarrierSNs.filter (fun s => !decide (s = sn)) }

/-- Modelled from the spec: `MemDepUnit::completeInst` together with the
private `wakeDependents`/`completed` helpers (missing `mem_dep_unit.cc`).
Mark the entry complete, walk `dependInsts` decrementing each live
dependent's `memDeps`, signal (in dependents-list order, spec section 5)
every dependent that thereby becomes ready to issue, then release the
producer: remove it from the registry and its thread's order list, and drop
its sequence number from both barrier sets (spec section 4.2: barrier
clearing happens when the barrier is removed). -/
def completeInst (st : MemDepUnitState) (sn : InstSeqNum) :
    MemDepUnitState × List InstSeqNum :=
  match st.memDepHash.find? (fun e => decide (e.instSN = sn)) with
  | none => (st, [])
  | some p =>
    (completeState st sn p,
     completeWoken (completeHash st.memDepHash sn p.dependInsts) p.dependInsts)

/-- The entry released by `completeInst`, with its completion flag set, as
observed just before removal. -/
def completedEntry (st : MemDepUnitState) (sn : InstSeqNum) : Option MemDepEntry :=
  (findInHash st sn).map (fun p => { p with completed := true })

/-- Sequence numbers discarded by `squash st n tid`: the members of thread
`tid`'s order list strictly greater than the cutoff `n`. -/
def squashRemovedSNs (st : MemDepUnitState) (n : InstSeqNum) (tid : ThreadID) :
    List InstSeqNum :=
  (st.instList.getD tid []).filter (fun s => decide (n < s))

/-- Severing pass of squash: drop every discarded consumer from a
surviving producer's `dependInsts`. -/
def squashSever (removed : List InstSeqNum) (e : MemDepEntry) : MemDepEntry :=
  { e with dependInsts := e.dependInsts.filter (fun c => !decide (c ∈ removed)) }

/-- Modelled from the spec: `MemDepUnit::squash` (missing
`mem_dep_unit.cc`).  For the given thread, drop from the order list every
entry younger than the cutoff; remove those entries from the registry,
sever them from every surviving producer's `dependInsts` list, and discard
their sequence numbers from the barrier sets and the replay queue. -/
def squash (st : MemDepUnitState) (n : InstSeqNum) (tid : ThreadID) : MemDepUnitState :=
  { st with
    memDepHash :=
      (st.memDepHash.filter
        (fun e => !decide (e.instSN ∈ squashRemovedSNs st n tid))).map
        (squashSever (squashRemovedSNs st n tid))
    instList := st.instList.set tid
      ((st.instList.getD tid []).filter (fun s => !decide (n < s)))
    instsToReplay := st.instsToReplay.filter
      (fun s => !decide (s ∈ squashRemovedSNs st n tid))
    loadBarrierSNs := st.loadBarrierSNs.filter
      (fun s => !decide (s ∈ squashRemovedSNs st n tid))
    storeBarrierSNs := st.storeBarrierSNs.filter
      (fun s => !decide (s ∈ squashRemovedSNs st n tid)) }

/-- The entries removed by `squash st n tid`, each with its squashed flag
set, as observed just before removal. -/
def squashRemovedEntries (st : MemDepUnitState) (n : InstSeqNum) (tid : ThreadID) :
    List MemDepEntry :=
  (st.memDepHash.filter (fun e => decide (e.instSN ∈ squashRemovedSNs st n tid))).map
    (fun e => { e with squashed := true })

/-- `MemDepUnit::isDrained` (header line 106, body modelled from the spec):
registry, every order list and the replay queue are simultaneously empty. -/
def isDrained (st : MemDepUnitState) : Bool :=
  st.memDepHash.isEmpty && st.instList.all (fun l => l.isEmpty) &&
    st.instsToReplay.isEmpty

/-! ## Operation alphabet and run semantics

The public interface of the unit (spec section 6), as an alphabet of
operations driven by the issue scheduler.  `step` executes one operation,
returning the new state and the instructions signaled issue-ready by it. -/

/-- One invocation of a public operation of the unit. -/
inductive MemDepOp where
  | opInsert (inst : DynInst) (pred : Option InstSeqNum)
  | opInsertNonSpec (inst : DynInst)
  | opInsertBarrier (inst : DynInst)
  | opRegsReady (sn : InstSeqNum)
  | opNonSpecReady (sn : InstSeqNum)
  | opReschedule (sn : InstSeqNum)
  | opViolation (storeSN loadSN : InstSeqNum)
  | opReplay
  | opComplete (sn : InstSeqNum)
  | opSquash (n : InstSeqNum) (tid : ThreadID)
  | opIssue (sn : InstSeqNum)
  | opTakeOver
deriving DecidableEq

/-- Execute one public operation: successor state plus the instructions the
unit signals issue-ready to the instruction queue during it. -/
def step (st : MemDepUnitState) (op : MemDepOp) : MemDepUnitState × List InstSeqNum :=
  match op with
  | .opInsert inst pred => insert st inst pred
  | .opInsertNonSpec inst => insertNonSpec st inst
  | .opInsertBarrier inst => insertBarrier st inst
  | .opRegsReady sn => regsReadyOp st sn
  | .opNonSpecReady sn => nonSpecInstReadyOp st sn
  | .opReschedule sn => (reschedule st sn, [])
  | .opViolation s l => (violation st s l, [])
  | .opReplay => replayOp st
  | .opComplete sn => completeInst st sn
  | .opSquash n tid => (squash st n tid, [])
  | .opIssue sn => (issueOp st sn, [])
  | .opTakeOver => (takeOverFrom st, [])

/-- Every sequence number recorded anywhere in the unit's state. -/
def allSNs (st : MemDepUnitState) : List InstSeqNum :=
  st.memDepHash.map (fun e => e.instSN) ++
  (st.memDepHash.map (fun e => e.dependInsts)).flatten ++
  st.instList.flatten ++ st.instsToReplay ++ st.loadBarrierSNs ++ st.storeBarrierSNs

/-- Environment contract for one operation (spec sections 5-6): the
scheduler inserts instructions belonging to this unit's thread (the unit is
instantiated per thread, header line 259), with a thread id inside the
order-list array, and with a sequence number strictly newer than everything
the unit has ever been told about (sequence numbers are globally increasing
and never reused, spec glossary). -/
def validB (st : MemDepUnitState) (op : MemDepOp) : Bool :=
  match op with
  | .opInsert inst _ | .opInsertNonSpec inst | .opInsertBarrier inst =>
    decide (inst.tid = st.id) && decide (inst.tid < O3MaxThreads) &&
      (allSNs st).all (fun s => decide (s < inst.seqNum))
  | _ => true

/-- A whole call sequence respects the environment contract. -/
def runValid (st : MemDepUnitState) : List MemDepOp → Bool
  | [] => true
  | op :: ops => validB st op && runValid (step st op).1 ops

/-- State after a call sequence. -/
def runState (st : MemDepUnitState) : List MemDepOp → MemDepUnitState
  | [] => st
  | op :: ops => runState (step st op).1 ops

/-- All issue-ready signals emitted during a call sequence, in order. -/
def runSignals (st : MemDepUnitState) : List MemDepOp → List InstSeqNum
  | [] => []
  | op :: ops => (step st op).2 ++ runSignals (step st op).1 ops

/-- A state the unit can actually be in: produced from a freshly
initialized unit by some contract-respecting call sequence. -/
def Reach (st : MemDepUnitState) : Prop :=
  ∃ tid0 ops, runValid (initState tid0) ops = true ∧ runState (initState tid0) ops = st

/-! ## The registry invariant -/

/-- Number of not-yet-completed producer entries in `reg` whose
`dependInsts` list contains the consumer `c`. -/
def producerCount (reg : List MemDepEntry) (c : InstSeqNum) : Nat :=
  reg.countP (fun p => !p.completed && decide (c ∈ p.dependInsts))

/-- Internal consistency of a unit state, the inductive invariant of the
step relation:
registry keys are pairwise distinct; registry entries are neither completed
nor squashed (both conditions release an entry at once in this model);
every entry's pending counter agrees with the producer edges pointing at
it; edges point from older to younger instructions; registry and per-thread
order lists track each other; barrier-set members are registered; all
entries belong to the unit's thread; and the order-list array has its fixed
size. -/
def Inv (st : MemDepUnitState) : Prop :=
  (st.memDepHash.map (fun e => e.instSN)).Nodup ∧
  (∀ e ∈ st.memDepHash, e.completed = false ∧ e.squashed = false) ∧
  (∀ e ∈ st.memDepHash, e.memDeps = (producerCount st.memDepHash e.instSN : Int)) ∧
  (∀ p ∈ st.memDepHash, ∀ c ∈ p.dependInsts, p.instSN ≤ c) ∧
  (∀ e ∈ st.memDepHash, e.instSN ∈ st.instList.getD e.tid []) ∧
  (∀ t : ThreadID, ∀ sn ∈ st.instList.getD t [],
    ∃ e ∈ st.memDepHash, e.instSN = sn ∧ e.tid = t) ∧
  (∀ b ∈ st.loadBarrierSNs ++ st.storeBarrierSNs,
    ∃ e ∈ st.memDepHash, e.instSN = b) ∧
  (∀ e ∈ st.memDepHash, e.tid = st.id) ∧
  st.instList.length = O3MaxThreads

/-! ## Generic list lemmas -/

theorem countP_split {α : Type _} (p q : α → Bool) (l : List α) :
    l.countP p = l.countP (fun a => p a && q a) + l.countP (fun a => p a && !q a) := by
  induction l with
  | nil => rfl
  | cons x xs ih =>
    rw [List.countP_cons, List.countP_cons, List.countP_cons, ih]
    cases hp : p x <;> cases hq : q x <;> simp [hp, hq] <;> omega

theorem getD_set_self {α : Type _} (l : List α) (i : Nat) (a d : α) (h : i < l.length) :
    (l.set i a).getD i d = a := by
  simp [List.getD_eq_getElem?_getD, List.getElem?_set_self, h]

theorem getD_set_ne {α : Type _} (l : List α) {i j : Nat} (a d : α) (h : i ≠ j) :
    (l.set i a).getD j d = l.getD j d := by
  simp [List.getD_eq_getElem?_getD, List.getElem?_set_ne h]

theorem lt_length_of_getD_ne_nil {α : Type _} (l : List (List α)) (i : Nat)
    (h : l.getD i [] ≠ []) : i < l.length := by
  by_contra hle
  push_neg at hle
  exact h (by simp [List.getD_eq_getElem?_getD, List.getElem?_eq_none hle])

theorem find?_map_of_pred {α : Type _} (l : List α) (f : α → α) (p : α → Bool)
    (hf : ∀ a, p (f a) = p a) :
    (l.map f).find? p = (l.find? p).map f := by
  induction l with
  | nil => rfl
  | cons x xs ih =>
    rw [List.map_cons]
    cases hp : p x
    · rw [List.find?_cons_of_neg _ (by simp [hf, hp]),
        List.find?_cons_of_neg _ (by simp [hp]), ih]
    · rw [List.find?_cons_of_pos _ (by simp [hf, hp]),
        List.find?_cons_of_pos _ (by simp [hp])]
      rfl

/-! ## Registry lemmas: lookup and counting under distinct keys -/

theorem find?_key_of_mem {reg : List MemDepEntry}
    (hnd : (reg.map (fun e => e.instSN)).Nodup) {e : MemDepEntry} (he : e ∈ reg) :
    reg.find? (fun x => decide (x.instSN = e.instSN)) = some e := by
  induction reg with
  | nil => cases he
  | cons x xs ih =>
    rw [List.map_cons, List.nodup_cons] at hnd
    rcases List.mem_cons.1 he with rfl | hmem
    · rw [List.find?_cons_of_pos _ (by simp)]
    · have hne : x.instSN ≠ e.instSN := by
        intro hx
        exact hnd.1 (hx ▸ List.mem_map_of_mem (fun e => e.instSN) hmem)
      rw [List.find?_cons_of_neg _ (by simp [hne]), ih hnd.2 hmem]

theorem key_inj {reg : List MemDepEntry}
    (hnd : (reg.map (fun e => e.instSN)).Nodup) {e₁ e₂ : MemDepEntry}
    (h1 : e₁ ∈ reg) (h2 : e₂ ∈ reg) (hk : e₁.instSN = e₂.instSN) : e₁ = e₂ := by
  have hf1 := find?_key_of_mem hnd h1
  have hf2 := find?_key_of_mem hnd h2
  rw [hk] at hf1
  rw [hf1] at hf2
  exact Option.some_inj.1 hf2

theorem countP_keyed {reg : List MemDepEntry}
    (hnd : (reg.map (fun e => e.instSN)).Nodup) {P : MemDepEntry} (hP : P ∈ reg)
    (g : MemDepEntry → Bool) :
    reg.countP (fun e => g e && decide (e.instSN = P.instSN)) =
      if g P then 1 else 0 := by
  induction reg with
  | nil => cases hP
  | cons x xs ih =>
    rw [List.map_cons, List.nodup_cons] at hnd
    rw [List.countP_cons]
    rcases List.mem_cons.1 hP with rfl | hmem
    · have h0 : xs.countP (fun e => g e && decide (e.instSN = P.instSN)) = 0 := by
        apply List.countP_eq_zero.2
        intro a ha
        simp only [Bool.and_eq_true, decide_eq_true_eq, not_and]
        intro _ hk
        exact absurd (hk ▸ List.mem_map_of_mem (fun e => e.instSN) ha) hnd.1
      cases hg : g P <;> simp [h0, hg]
    · have hne : x.instSN ≠ P.instSN := by
        intro hx
        exact hnd.1 (hx ▸ List.mem_map_of_mem (fun e => e.instSN) hmem)
      simp [hne, ih hnd.2 hmem]

/-! ## Membership in the recorded-sequence-number pool -/

theorem key_mem_allSNs {st : MemDepUnitState} {e : MemDepEntry}
    (he : e ∈ st.memDepHash) : e.instSN ∈ allSNs st := by
  unfold allSNs
  refine List.mem_append_left _ (List.mem_append_left _ (List.mem_append_left _
    (List.mem_append_left _ (List.mem_append_left _ ?_))))
  exact List.mem_map_of_mem (fun e => e.instSN) he

theorem dep_mem_allSNs {st : MemDepUnitState} {p : MemDepEntry} {c : InstSeqNum}
    (hp : p ∈ st.memDepHash) (hc : c ∈ p.dependInsts) : c ∈ allSNs st := by
  unfold allSNs
  refine List.mem_append_left _ (List.mem_append_left _ (List.mem_append_left _
    (List.mem_append_left _ (List.mem_append_right _ ?_))))
  exact List.mem_flatten.2 ⟨p.dependInsts, List.mem_map_of_mem (fun e => e.dependInsts) hp, hc⟩

theorem instList_mem_allSNs {st : MemDepUnitState} {t : ThreadID} {s : InstSeqNum}
    (hs : s ∈ st.instList.getD t []) : s ∈ allSNs st := by
  unfold allSNs
  refine List.mem_append_left _ (List.mem_append_left _ (List.mem_append_left _
    (List.mem_append_right _ ?_)))
  have hne : st.instList.getD t [] ≠ [] := by
    intro hnil
    rw [hnil] at hs
    cases hs
  have hlt : t < st.instList.length := lt_length_of_getD_ne_nil _ _ hne
  have hmem : st.instList.getD t [] ∈ st.instList := by
    have hg : st.instList.getD t [] = st.instList[t] := by
      rw [List.getD_eq_getElem?_getD, List.getElem?_eq_getElem hlt]
      rfl
    rw [hg]
    exact List.getElem_mem hlt
  exact List.mem_flatten.2 ⟨_, hmem, hs⟩

theorem replay_mem_allSNs {st : MemDepUnitState} {s : InstSeqNum}
    (hs : s ∈ st.instsToReplay) : s ∈ allSNs st := by
  unfold allSNs
  exact List.mem_append_left _ (List.mem_append_left _ (List.mem_append_right _ hs))

theorem lb_mem_allSNs {st : MemDepUnitState} {s : InstSeqNum}
    (hs : s ∈ st.loadBarrierSNs) : s ∈ allSNs st := by
  unfold allSNs
  exact List.mem_append_left _ (List.mem_append_right _ hs)

theorem sb_mem_allSNs {st : MemDepUnitState} {s : InstSeqNum}
    (hs : s ∈ st.storeBarrierSNs) : s ∈ allSNs st := by
  unfold allSNs
  exact List.mem_append_right _ hs

/-! ## Field lemmas for the linking pass of insertion -/

@[simp] theorem insertLink_instSN (sn : InstSeqNum) (cands : List InstSeqNum)
    (p : MemDepEntry) : (insertLink sn cands p).instSN = p.instSN := by
  unfold insertLink
  split <;> rfl

@[simp] theorem insertLink_tid (sn : InstSeqNum) (cands : List InstSeqNum)
    (p : MemDepEntry) : (insertLink sn cands p).tid = p.tid := by
  unfold insertLink
  split <;> rfl

@[simp] theorem insertLink_completed (sn : InstSeqNum) (cands : List InstSeqNum)
    (p : MemDepEntry) : (insertLink sn cands p).completed = p.completed := by
  unfold insertLink
  split <;> rfl

@[simp] theorem insertLink_squashed (sn : InstSeqNum) (cands : List InstSeqNum)
    (p : MemDepEntry) : (insertLink sn cands p).squashed = p.squashed := by
  unfold insertLink
  split <;> rfl

@[simp] theorem insertLink_memDeps (sn : InstSeqNum) (cands : List InstSeqNum)
    (p : MemDepEntry) : (insertLink sn cands p).memDeps = p.memDeps := by
  unfold insertLink
  split <;> rfl

@[simp] theorem insertLink_regsReady (sn : InstSeqNum) (cands : List InstSeqNum)
    (p : MemDepEntry) : (insertLink sn cands p).regsReady = p.regsReady := by
  unfold insertLink
  split <;> rfl

theorem insertLink_mem_dep (sn : InstSeqNum) (cands : List InstSeqNum)
    (p : MemDepEntry) (c : InstSeqNum) :
    c ∈ (insertLink sn cands p).dependInsts ↔
      c ∈ p.dependInsts ∨ (prodKeep cands p = true ∧ c = sn) := by
  unfold insertLink
  split <;> rename_i hk <;> simp [hk]

@[simp] theorem insertedEntry_instSN (st : MemDepUnitState) (inst : DynInst)
    (cands : List InstSeqNum) : (insertedEntry st inst cands).instSN = inst.seqNum := rfl

@[simp] theorem insertedEntry_tid (st : MemDepUnitState) (inst : DynInst)
    (cands : List InstSeqNum) : (insertedEntry st inst cands).tid = inst.tid := rfl

@[simp] theorem insertedEntry_dependInsts (st : MemDepUnitState) (inst : DynInst)
    (cands : List InstSeqNum) : (insertedEntry st inst cands).dependInsts = [] := rfl

@[simp] theorem insertedEntry_completed (st : MemDepUnitState) (inst : DynInst)
    (cands : List InstSeqNum) : (insertedEntry st inst cands).completed = false := rfl

@[simp] theorem insertedEntry_squashed (st : MemDepUnitState) (inst : DynInst)
    (cands : List InstSeqNum) : (insertedEntry st inst cands).squashed = false := rfl

@[simp] theorem insertedEntry_regsReady (st : MemDepUnitState) (inst : DynInst)
    (cands : List InstSeqNum) : (insertedEntry st inst cands).regsReady = inst.readyRegs := rfl

@[simp] theorem insertedEntry_memDeps (st : MemDepUnitState) (inst : DynInst)
    (cands : List InstSeqNum) :
    (insertedEntry st inst cands).memDeps = (st.memDepHash.countP (prodKeep cands) : Int) := rfl

/-! ## Invariant preservation, insertion -/

theorem Inv_insertCoreState {st : MemDepUnitState} {inst : DynInst}
    {cands : List InstSeqNum}
    (h : Inv st) (htid : inst.tid = st.id) (hlt : inst.tid < O3MaxThreads)
    (hfresh : ∀ s ∈ allSNs st, s < inst.seqNum) :
    Inv (insertCoreState st inst cands) := by
  obtain ⟨h1, h2, h3, h4, h5, h6, h7, h8, h9⟩ := h
  have hkey : ∀ e ∈ st.memDepHash, e.instSN < inst.seqNum :=
    fun e he => hfresh _ (key_mem_allSNs he)
  have hdeplt : ∀ p ∈ st.memDepHash, ∀ c ∈ p.dependInsts, c < inst.seqNum :=
    fun p hp c hc => hfresh _ (dep_mem_allSNs hp hc)
  have hlen : inst.tid < st.instList.length := by rw [h9]; exact hlt
  refine ⟨?_, ?_, ?_, ?_, ?_, ?_, ?_, ?_, ?_⟩
  · -- registry keys stay pairwise distinct
    show ((st.memDepHash.map (insertLink inst.seqNum cands) ++
      [insertedEntry st inst cands]).map (fun e => e.instSN)).Nodup
    rw [List.map_append, List.map_map]
    have hmapeq : st.memDepHash.map ((fun e => e.instSN) ∘ insertLink inst.seqNum cands) =
        st.memDepHash.map (fun e => e.instSN) :=
      List.map_congr_left (fun e _ => insertLink_instSN _ _ e)
    rw [hmapeq]
    refine List.Nodup.append h1 (List.nodup_singleton _) ?_
    intro a ha hb
    simp only [List.map_cons, List.map_nil, List.mem_singleton,
      insertedEntry_instSN] at hb
    rcases List.mem_map.1 ha with ⟨e, he, rfl⟩
    exact absurd hb (Nat.ne_of_lt (hkey e he))
  · -- registry entries are neither completed nor squashed
    intro e' he'
    rcases List.mem_append.1 he' with hm | hm
    · rcases List.mem_map.1 hm with ⟨e, he, rfl⟩
      simpa using h2 e he
    · rw [List.mem_singleton] at hm
      subst hm
      simp
  · -- pending counters agree with producer edges
    intro e' he'
    rcases List.mem_append.1 he' with hm | hm
    · rcases List.mem_map.1 hm with ⟨e, he, rfl⟩
      have hc : e.instSN < inst.seqNum := hkey e he
      show (insertLink inst.seqNum cands e).memDeps =
        (producerCount (insertCoreState st inst cands).memDepHash
          (insertLink inst.seqNum cands e).instSN : Int)
      rw [insertLink_memDeps, insertLink_instSN]
      have hpc : producerCount (insertCoreState st inst cands).memDepHash e.instSN =
          producerCount st.memDepHash e.instSN := by
        show producerCount (st.memDepHash.map (insertLink inst.seqNum cands) ++
          [insertedEntry st inst cands]) e.instSN = _
        unfold producerCount
        rw [List.countP_append, List.countP_map]
        have hone : List.countP
            (fun p => !p.completed && decide (e.instSN ∈ p.dependInsts))
            [insertedEntry st inst cands] = 0 := by
          simp [List.countP_cons]
        rw [hone, Nat.add_zero]
        apply List.countP_congr
        intro p hp
        simp only [Function.comp_apply, Bool.and_eq_true, decide_eq_true_eq,
          insertLink_completed]
        constructor
        · rintro ⟨hcmp, hmem⟩
          rcases (insertLink_mem_dep _ _ _ _).1 hmem with hmf | ⟨-, hEq⟩
          · exact ⟨hcmp, hmf⟩
          · exact absurd hEq (Nat.ne_of_lt hc)
        · rintro ⟨hcmp, hmem⟩
          exact ⟨hcmp, (insertLink_mem_dep _ _ _ _).2 (Or.inl hmem)⟩
      rw [hpc]
      exact h3 e he
    · rw [List.mem_singleton] at hm
      subst hm
      show (insertedEntry st inst cands).memDeps =
        (producerCount (insertCoreState st inst cands).memDepHash
          (insertedEntry st inst cands).instSN : Int)
      rw [insertedEntry_memDeps, insertedEntry_instSN]
      have hpc : producerCount (insertCoreState st inst cands).memDepHash inst.seqNum =
          st.memDepHash.countP (prodKeep cands) := by
        show producerCount (st.memDepHash.map (insertLink inst.seqNum cands) ++
          [insertedEntry st inst cands]) inst.seqNum = _
        unfold producerCount
        rw [List.countP_append, List.countP_map]
        have hone : List.countP
            (fun p => !p.completed && decide (inst.seqNum ∈ p.dependInsts))
            [insertedEntry st inst cands] = 0 := by
          simp [List.countP_cons]
        rw [hone, Nat.add_zero]
        apply List.countP_congr
        intro p hp
        simp only [Function.comp_apply, Bool.and_eq_true, decide_eq_true_eq,
          insertLink_completed]
        constructor
        · rintro ⟨hcmp, hmem⟩
          rcases (insertLink_mem_dep _ _ _ _).1 hmem with hmf | ⟨hk, -⟩
          · exact absurd (hdeplt p hp _ hmf) (Nat.lt_irrefl _)
          · exact hk
        · intro hk
          refine ⟨?_, (insertLink_mem_dep _ _ _ _).2 (Or.inr ⟨hk, rfl⟩)⟩
          unfold prodKeep at hk
          simp only [Bool.and_eq_true, Bool.not_eq_true'] at hk
          simp [hk.1.2]
      rw [hpc]
  · -- edges point from older to younger instructions
    intro p' hp' c hc
    rcases List.mem_append.1 hp' with hm | hm
    · rcases List.mem_map.1 hm with ⟨p, hp, rfl⟩
      rw [insertLink_instSN]
      rcases (insertLink_mem_dep _ _ _ _).1 hc with hmf | ⟨-, rfl⟩
      · exact h4 p hp c hmf
      · exact Nat.le_of_lt (hkey p hp)
    · rw [List.mem_singleton] at hm
      subst hm
      rw [insertedEntry_dependInsts] at hc
      cases hc
  · -- every registry entry sits in its thread's order list
    intro e' he'
    rcases List.mem_append.1 he' with hm | hm
    · rcases List.mem_map.1 hm with ⟨e, he, rfl⟩
      rw [insertLink_instSN, insertLink_tid]
      show e.instSN ∈ (st.instList.set inst.tid
        ((st.instList.getD inst.tid []) ++ [inst.seqNum])).getD e.tid []
      by_cases ht : inst.tid = e.tid
      · rw [← ht, getD_set_self _ _ _ _ hlen]
        exact List.mem_append_left _ (ht ▸ h5 e he)
      · rw [getD_set_ne _ _ _ ht]
        exact h5 e he
    · rw [List.mem_singleton] at hm
      subst hm
      rw [insertedEntry_instSN, insertedEntry_tid]
      show inst.seqNum ∈ (st.instList.set inst.tid
        ((st.instList.getD inst.tid []) ++ [inst.seqNum])).getD inst.tid []
      rw [getD_set_self _ _ _ _ hlen]
      exact List.mem_append_right _ (List.mem_singleton.2 rfl)
  · -- every order-list member is registered
    intro t sn' hsn'
    by_cases ht : inst.tid = t
    · subst ht
      rw [show (insertCoreState st inst cands).instList = st.instList.set inst.tid
          ((st.instList.getD inst.tid []) ++ [inst.seqNum]) from rfl,
        getD_set_self _ _ _ _ hlen] at hsn'
      rcases List.mem_append.1 hsn' with hm | hm
      · rcases h6 inst.tid sn' hm with ⟨e, he, hk, htd⟩
        exact ⟨insertLink inst.seqNum cands e,
          List.mem_append_left _ (List.mem_map_of_mem _ he), by simpa using hk,
          by simpa using htd⟩
      · rw [List.mem_singleton] at hm
        subst hm
        exact ⟨insertedEntry st inst cands,
          List.mem_append_right _ (List.mem_singleton.2 rfl), by simp, by simp⟩
    · rw [show (insertCoreState st inst cands).instList = st.instList.set inst.tid
          ((st.instList.getD inst.tid []) ++ [inst.seqNum]) from rfl,
        getD_set_ne _ _ _ ht] at hsn'
      rcases h6 t sn' hsn' with ⟨e, he, hk, htd⟩
      exact ⟨insertLink inst.seqNum cands e,
        List.mem_append_left _ (List.mem_map_of_mem _ he), by simpa using hk,
        by simpa using htd⟩
  · -- barrier-set members are registered
    intro b hb
    rcases h7 b hb with ⟨e, he, hk⟩
    exact ⟨insertLink inst.seqNum cands e,
      List.mem_append_left _ (List.mem_map_of_mem _ he), by simpa using hk⟩
  · -- all entries belong to this unit's thread
    intro e' he'
    rcases List.mem_append.1 he' with hm | hm
    · rcases List.mem_map.1 hm with ⟨e, he, rfl⟩
      simpa using h8 e he
    · rw [List.mem_singleton] at hm
      subst hm
      simpa using htid
  · -- the order-list array keeps its fixed size
    show (st.instList.set inst.tid _).length = O3MaxThreads
    rw [List.length_set]
    exact h9

/-! ## Invariant preservation, remaining operations -/

theorem fst_ite_pair {c : Prop} [Decidable c] {α β : Type _} (a : α) (x y : β) :
    (if c then (a, x) else (a, y)).1 = a := by
  split <;> rfl

theorem getD_replicate_nil {α : Type _} (n t : Nat) :
    (List.replicate n ([] : List α)).getD t [] = [] := by
  rw [List.getD_eq_getElem?_getD, List.getElem?_replicate]
  split <;> rfl

theorem Inv_initState (tid : ThreadID) : Inv (initState tid) := by
  refine ⟨List.nodup_nil, ?_, ?_, ?_, ?_, ?_, ?_, ?_, ?_⟩
  · intro e he
    cases he
  · intro e he
    cases he
  · intro p hp
    cases hp
  · intro e he
    cases he
  · intro t sn hsn
    rw [show (initState tid).instList = List.replicate O3MaxThreads [] from rfl,
      getD_replicate_nil] at hsn
    cases hsn
  · intro b hb
    cases hb
  · intro e he
    cases he
  · exact List.length_replicate O3MaxThreads []

/-- The invariant survives any registry-wide update that only rewrites the
readiness flag (the shape of the `regsReady` operation). -/
theorem Inv_hash_map {st : MemDepUnitState} (f : MemDepEntry → MemDepEntry)
    (hsn : ∀ e, (f e).instSN = e.instSN) (htd : ∀ e, (f e).tid = e.tid)
    (hdp : ∀ e, (f e).dependInsts = e.dependInsts)
    (hmd : ∀ e, (f e).memDeps = e.memDeps)
    (hcm : ∀ e, (f e).completed = e.completed)
    (hsq : ∀ e, (f e).squashed = e.squashed)
    (h : Inv st) : Inv { st with memDepHash := st.memDepHash.map f } := by
  obtain ⟨h1, h2, h3, h4, h5, h6, h7, h8, h9⟩ := h
  have hpc : ∀ c, producerCount (st.memDepHash.map f) c = producerCount st.memDepHash c := by
    intro c
    unfold producerCount
    rw [List.countP_map]
    apply List.countP_congr
    intro p hp
    simp [Function.comp, hcm, hdp]
  refine ⟨?_, ?_, ?_, ?_, ?_, ?_, ?_, ?_, h9⟩
  · show ((st.memDepHash.map f).map (fun e => e.instSN)).Nodup
    rw [List.map_map]
    have : st.memDepHash.map ((fun e => e.instSN) ∘ f) = st.memDepHash.map (fun e => e.instSN) :=
      List.map_congr_left (fun e _ => hsn e)
    rw [this]
    exact h1
  · intro e' he'
    rcases List.mem_map.1 he' with ⟨e, he, rfl⟩
    rw [hcm, hsq]
    exact h2 e he
  · intro e' he'
    rcases List.mem_map.1 he' with ⟨e, he, rfl⟩
    show (f e).memDeps = (producerCount (st.memDepHash.map f) (f e).instSN : Int)
    rw [hmd, hsn, hpc]
    exact h3 e he
  · intro p' hp' c hc
    rcases List.mem_map.1 hp' with ⟨p, hp, rfl⟩
    rw [hsn]
    rw [hdp] at hc
    exact h4 p hp c hc
  · intro e' he'
    rcases List.mem_map.1 he' with ⟨e, he, rfl⟩
    rw [hsn, htd]
    exact h5 e he
  · intro t sn hsn'
    rcases h6 t sn hsn' with ⟨e, he, hk, htd'⟩
    exact ⟨f e, List.mem_map_of_mem f he, by rw [hsn]; exact hk, by rw [htd]; exact htd'⟩
  · intro b hb
    rcases h7 b hb with ⟨e, he, hk⟩
    exact ⟨f e, List.mem_map_of_mem f he, by rw [hsn]; exact hk⟩
  · intro e' he'
    rcases List.mem_map.1 he' with ⟨e, he, rfl⟩
    rw [htd]
    exact h8 e he

theorem Inv_regsReadyOp {st : MemDepUnitState} (sn : InstSeqNum) (h : Inv st) :
    Inv (regsReadyOp st sn).1 := by
  unfold regsReadyOp
  cases hf : st.memDepHash.find? (fun e => decide (e.instSN = sn)) with
  | none => exact h
  | some e =>
    rw [fst_ite_pair]
    apply Inv_hash_map _ _ _ _ _ _ _ h <;> intro x <;> dsimp only [] <;> split <;> rfl

theorem Inv_reschedule {st : MemDepUnitState} (sn : InstSeqNum) (h : Inv st) :
    Inv (reschedule st sn) := by
  obtain ⟨h1, h2, h3, h4, h5, h6, h7, h8, h9⟩ := h
  exact ⟨h1, h2, h3, h4, h5, h6, h7, h8, h9⟩

theorem Inv_replayOp {st : MemDepUnitState} (h : Inv st) : Inv (replayOp st).1 := by
  obtain ⟨h1, h2, h3, h4, h5, h6, h7, h8, h9⟩ := h
  exact ⟨h1, h2, h3, h4, h5, h6, h7, h8, h9⟩

theorem Inv_takeOverFrom {st : MemDepUnitState} (h : Inv st) : Inv (takeOverFrom st) := by
  obtain ⟨h1, h2, h3, h4, h5, h6, h7, h8, h9⟩ := h
  refine ⟨h1, h2, h3, h4, h5, h6, ?_, h8, h9⟩
  intro b hb
  cases hb

/-- Recording a just-registered barrier's sequence number keeps the
invariant: the fresh entry witnesses the new set members. -/
theorem Inv_insertBarrierSN {st : MemDepUnitState} {inst : DynInst}
    (h : Inv st) (hreg : ∃ e ∈ st.memDepHash, e.instSN = inst.seqNum) :
    Inv (insertBarrierSN st inst) := by
  obtain ⟨h1, h2, h3, h4, h5, h6, h7, h8, h9⟩ := h
  refine ⟨h1, h2, h3, h4, h5, h6, ?_, h8, h9⟩
  intro b hb
  rcases List.mem_append.1 hb with hbl | hbs
  · by_cases hl : inst.isLoadBarrier = true
    · rw [show (insertBarrierSN st inst).loadBarrierSNs =
          st.loadBarrierSNs ++ [inst.seqNum] by simp [insertBarrierSN, hl]] at hbl
      rcases List.mem_append.1 hbl with hm | hm
      · exact h7 b (List.mem_append_left _ hm)
      · rw [List.mem_singleton] at hm
        subst hm
        exact hreg
    · rw [show (insertBarrierSN st inst).loadBarrierSNs = st.loadBarrierSNs by
          simp [insertBarrierSN, hl]] at hbl
      exact h7 b (List.mem_append_left _ hbl)
  · by_cases hs : inst.isStoreBarrier = true
    · rw [show (insertBarrierSN st inst).storeBarrierSNs =
          st.storeBarrierSNs ++ [inst.seqNum] by simp [insertBarrierSN, hs]] at hbs
      rcases List.mem_append.1 hbs with hm | hm
      · exact h7 b (List.mem_append_right _ hm)
      · rw [List.mem_singleton] at hm
        subst hm
        exact hreg
    · rw [show (insertBarrierSN st inst).storeBarrierSNs = st.storeBarrierSNs by
          simp [insertBarrierSN, hs]] at hbs
      exact h7 b (List.mem_append_right _ hbs)

/-! ## Invariant preservation, completion -/

@[simp] theorem completeDecr_instSN (dep : List InstSeqNum) (e : MemDepEntry) :
    (completeDecr dep e).instSN = e.instSN := by
  unfold completeDecr
  split <;> rfl

@[simp] theorem completeDecr_tid (dep : List InstSeqNum) (e : MemDepEntry) :
    (completeDecr dep e).tid = e.tid := by
  unfold completeDecr
  split <;> rfl

@[simp] theorem completeDecr_dependInsts (dep : List InstSeqNum) (e : MemDepEntry) :
    (completeDecr dep e).dependInsts = e.dependInsts := by
  unfold completeDecr
  split <;> rfl

@[simp] theorem completeDecr_completed (dep : List InstSeqNum) (e : MemDepEntry) :
    (completeDecr dep e).completed = e.completed := by
  unfold completeDecr
  split <;> rfl

@[simp] theorem completeDecr_squashed (dep : List InstSeqNum) (e : MemDepEntry) :
    (completeDecr dep e).squashed = e.squashed := by
  unfold completeDecr
  split <;> rfl

@[simp] theorem completeDecr_regsReady (dep : List InstSeqNum) (e : MemDepEntry) :
    (completeDecr dep e).regsReady = e.regsReady := by
  unfold completeDecr
  split <;> rfl

theorem completeDecr_memDeps (dep : List InstSeqNum) (e : MemDepEntry) :
    (completeDecr dep e).memDeps =
      e.memDeps - (if e.instSN ∈ dep then 1 else 0) := by
  unfold completeDecr
  split <;> rename_i hm <;> simp only [decide_eq_true_eq] at hm <;> simp [hm]

/-- Removing a completed producer and decrementing its dependents shifts
the producer count of any other key down by the dropped producer's edge. -/
theorem producerCount_completeHash {reg : List MemDepEntry} {P : MemDepEntry}
    (hnd : (reg.map (fun e => e.instSN)).Nodup) (hP : P ∈ reg)
    (hPc : P.completed = false) (c : InstSeqNum) :
    producerCount reg c =
      producerCount (completeHash reg P.instSN P.dependInsts) c +
        (if c ∈ P.dependInsts then 1 else 0) := by
  unfold producerCount completeHash
  rw [List.countP_map]
  have hcomp : List.countP
      ((fun p => !p.completed && decide (c ∈ p.dependInsts)) ∘ completeDecr P.dependInsts)
      (reg.filter (fun e => !decide (e.instSN = P.instSN))) =
      List.countP (fun p => !p.completed && decide (c ∈ p.dependInsts))
      (reg.filter (fun e => !decide (e.instSN = P.instSN))) := by
    apply List.countP_congr
    intro q hq
    simp [Function.comp]
  rw [hcomp, List.countP_filter]
  have hsplit := countP_split
    (fun p => !p.completed && decide (c ∈ p.dependInsts))
    (fun p => !decide (p.instSN = P.instSN)) reg
  rw [hsplit]
  have hkeyed : List.countP
      (fun p => (!p.completed && decide (c ∈ p.dependInsts)) &&
        !!decide (p.instSN = P.instSN)) reg =
      if c ∈ P.dependInsts then 1 else 0 := by
    have hc : List.countP
        (fun p => (!p.completed && decide (c ∈ p.dependInsts)) &&
          !!decide (p.instSN = P.instSN)) reg =
        List.countP
        (fun p => (!p.completed && decide (c ∈ p.dependInsts)) &&
          decide (p.instSN = P.instSN)) reg := by
      apply List.countP_congr
      intro q _
      simp
    rw [hc, countP_keyed hnd hP (fun p => !p.completed && decide (c ∈ p.dependInsts))]
    simp [hPc]
  rw [hkeyed]

theorem Inv_completeState {st : MemDepUnitState} {sn : InstSeqNum} {P : MemDepEntry}
    (h : Inv st) (hP : P ∈ st.memDepHash) (hk : P.instSN = sn) :
    Inv (completeState st sn P) := by
  obtain ⟨h1, h2, h3, h4, h5, h6, h7, h8, h9⟩ := h
  subst hk
  have hPc : P.completed = false := (h2 P hP).1
  have hPlen : P.tid < st.instList.length := by
    apply lt_length_of_getD_ne_nil
    intro hnil
    have := h5 P hP
    rw [hnil] at this
    cases this
  refine ⟨?_, ?_, ?_, ?_, ?_, ?_, ?_, ?_, ?_⟩
  · -- keys distinct: surviving keys form a sublist of the old keys
    show (((st.memDepHash.filter
        (fun e => !decide (e.instSN = P.instSN))).map
        (completeDecr P.dependInsts)).map (fun e => e.instSN)).Nodup
    rw [List.map_map]
    have heq : (st.memDepHash.filter (fun e => !decide (e.instSN = P.instSN))).map
        ((fun e => e.instSN) ∘ completeDecr P.dependInsts) =
        (st.memDepHash.filter (fun e => !decide (e.instSN = P.instSN))).map
        (fun e => e.instSN) :=
      List.map_congr_left (fun e _ => completeDecr_instSN _ e)
    rw [heq]
    have hsub : (st.memDepHash.filter
        (fun e => !decide (e.instSN = P.instSN))).Sublist st.memDepHash :=
      List.filter_sublist _
    exact h1.sublist (hsub.map (fun e => e.instSN))
  · intro e' he'
    rcases List.mem_map.1 he' with ⟨e, he, rfl⟩
    have hee := List.mem_filter.1 he
    simpa using h2 e hee.1
  · intro e' he'
    rcases List.mem_map.1 he' with ⟨e, he, rfl⟩
    obtain ⟨her, hne⟩ := List.mem_filter.1 he
    have hcount := producerCount_completeHash h1 hP hPc e.instSN
    have hmd := h3 e her
    show (completeDecr P.dependInsts e).memDeps =
      (producerCount (completeState st P.instSN P).memDepHash
        (completeDecr P.dependInsts e).instSN : Int)
    rw [completeDecr_memDeps, completeDecr_instSN]
    have : (completeState st P.instSN P).memDepHash =
        completeHash st.memDepHash P.instSN P.dependInsts := rfl
    rw [this]
    by_cases hmem : e.instSN ∈ P.dependInsts
    · rw [if_pos hmem]
      rw [if_pos hmem] at hcount
      rw [hmd, hcount]
      push_cast
      omega
    · rw [if_neg hmem]
      rw [if_neg hmem] at hcount
      rw [hmd, hcount]
      simp
  · intro p' hp' c hc
    rcases List.mem_map.1 hp' with ⟨p, hp, rfl⟩
    rw [completeDecr_instSN]
    rw [completeDecr_dependInsts] at hc
    exact h4 p (List.mem_filter.1 hp).1 c hc
  · intro e' he'
    rcases List.mem_map.1 he' with ⟨e, he, rfl⟩
    obtain ⟨her, hne⟩ := List.mem_filter.1 he
    rw [completeDecr_instSN, completeDecr_tid]
    have hnesn : e.instSN ≠ P.instSN := by
      simpa using hne
    show e.instSN ∈ (st.instList.set P.tid
      ((st.instList.getD P.tid []).filter
        (fun s => !decide (s = P.instSN)))).getD e.tid []
    by_cases ht : P.tid = e.tid
    · rw [← ht, getD_set_self _ _ _ _ hPlen]
      exact List.mem_filter.2 ⟨ht ▸ h5 e her, by simpa using hnesn⟩
    · rw [getD_set_ne _ _ _ ht]
      exact h5 e her
  · intro t sn' hsn'
    by_cases ht : P.tid = t
    · subst ht
      rw [show (completeState st P.instSN P).instList = st.instList.set P.tid
          ((st.instList.getD P.tid []).filter (fun s => !decide (s = P.instSN))) from rfl,
        getD_set_self _ _ _ _ hPlen] at hsn'
      obtain ⟨hold, hnesn⟩ := List.mem_filter.1 hsn'
      rcases h6 P.tid sn' hold with ⟨e, he, hke, hte⟩
      refine ⟨completeDecr P.dependInsts e, ?_, by simpa using hke, by simpa using hte⟩
      apply List.mem_map_of_mem
      apply List.mem_filter.2
      refine ⟨he, ?_⟩
      simp only [Bool.not_eq_true', decide_eq_false_iff_not]
      intro hcontra
      rw [hke] at hcontra
      rw [hcontra] at hnesn
      simp at hnesn
    · rw [show (completeState st P.instSN P).instList = st.instList.set P.tid
          ((st.instList.getD P.tid []).filter (fun s => !decide (s = P.instSN))) from rfl,
        getD_set_ne _ _ _ ht] at hsn'
      rcases h6 t sn' hsn' with ⟨e, he, hke, hte⟩
      refine ⟨completeDecr P.dependInsts e, ?_, by simpa using hke, by simpa using hte⟩
      apply List.mem_map_of_mem
      apply List.mem_filter.2
      refine ⟨he, ?_⟩
      simp only [Bool.not_eq_true', decide_eq_false_iff_not]
      intro hcontra
      apply ht
      rw [← hte]
      have hEq := key_inj h1 he hP hcontra
      rw [hEq]
  · intro b hb
    have hb' : (b ∈ st.loadBarrierSNs.filter (fun s => !decide (s = P.instSN))) ∨
        (b ∈ st.storeBarrierSNs.filter (fun s => !decide (s = P.instSN))) := by
      rcases List.mem_append.1 hb with hm | hm
      · exact Or.inl hm
      · exact Or.inr hm
    have hbold : b ∈ st.loadBarrierSNs ++ st.storeBarrierSNs ∧ b ≠ P.instSN := by
      rcases hb' with hm | hm
      · obtain ⟨hmm, hne⟩ := List.mem_filter.1 hm
        exact ⟨List.mem_append_left _ hmm, by simpa using hne⟩
      · obtain ⟨hmm, hne⟩ := List.mem_filter.1 hm
        exact ⟨List.mem_append_right _ hmm, by simpa using hne⟩
    rcases h7 b hbold.1 with ⟨e, he, hke⟩
    refine ⟨completeDecr P.dependInsts e, ?_, by simpa using hke⟩
    apply List.mem_map_of_mem
    apply List.mem_filter.2
    refine ⟨he, ?_⟩
    simp only [Bool.not_eq_true', decide_eq_false_iff_not]
    intro hcontra
    exact hbold.2 (by rw [← hke, hcontra])
  · intro e' he'
    rcases List.mem_map.1 he' with ⟨e, he, rfl⟩
    rw [completeDecr_tid]
    exact h8 e (List.mem_filter.1 he).1
  · show (st.instList.set P.tid _).length = O3MaxThreads
    rw [List.length_set]
    exact h9

theorem Inv_completeInst {st : MemDepUnitState} (sn : InstSeqNum) (h : Inv st) :
    Inv (completeInst st sn).1 := by
  unfold completeInst
  cases hf : st.memDepHash.find? (fun e => decide (e.instSN = sn)) with
  | none => exact h
  | some p =>
    have hp : p ∈ st.memDepHash := List.mem_of_find?_eq_some hf
    have hk : p.instSN = sn := by simpa using List.find?_some hf
    exact Inv_completeState h hp hk

/-! ## Invariant preservation, squash -/

theorem getD_eq_nil_of_le {α : Type _} (l : List (List α)) (i : Nat)
    (h : l.length ≤ i) : l.getD i [] = [] := by
  rw [List.getD_eq_getElem?_getD, List.getElem?_eq_none h]
  rfl

@[simp] theorem squashSever_instSN (removed : List InstSeqNum) (e : MemDepEntry) :
    (squashSever removed e).instSN = e.instSN := rfl

@[simp] theorem squashSever_tid (removed : List InstSeqNum) (e : MemDepEntry) :
    (squashSever removed e).tid = e.tid := rfl

@[simp] theorem squashSever_completed (removed : List InstSeqNum) (e : MemDepEntry) :
    (squashSever removed e).completed = e.completed := rfl

@[simp] theorem squashSever_squashed (removed : List InstSeqNum) (e : MemDepEntry) :
    (squashSever removed e).squashed = e.squashed := rfl

@[simp] theorem squashSever_regsReady (removed : List InstSeqNum) (e : MemDepEntry) :
    (squashSever removed e).regsReady = e.regsReady := rfl

@[simp] theorem squashSever_memDeps (removed : List InstSeqNum) (e : MemDepEntry) :
    (squashSever removed e).memDeps = e.memDeps := rfl

@[simp] theorem squashSever_dependInsts (removed : List InstSeqNum) (e : MemDepEntry) :
    (squashSever removed e).dependInsts =
      e.dependInsts.filter (fun c => !decide (c ∈ removed)) := rfl

/-- Under the invariant, a registered entry is discarded by
`squash st n tid` exactly when it belongs to thread `tid` and is younger
than the cutoff. -/
theorem squashRemoved_iff {st : MemDepUnitState} (h : Inv st) {e : MemDepEntry}
    (he : e ∈ st.memDepHash) (n : InstSeqNum) (tid : ThreadID) :
    e.instSN ∈ squashRemovedSNs st n tid ↔ (e.tid = tid ∧ n < e.instSN) := by
  obtain ⟨h1, h2, h3, h4, h5, h6, h7, h8, h9⟩ := h
  constructor
  · intro hm
    obtain ⟨hlst, hdec⟩ := List.mem_filter.1 hm
    have hlt : n < e.instSN := by simpa using hdec
    rcases h6 tid e.instSN hlst with ⟨q, hq, hkq, htq⟩
    have : q = e := key_inj h1 hq he hkq
    subst this
    exact ⟨htq, hlt⟩
  · rintro ⟨htid, hlt⟩
    apply List.mem_filter.2
    refine ⟨?_, by simpa using hlt⟩
    have := h5 e he
    rwa [htid] at this

/-- Squash leaves every surviving consumer's producer count unchanged:
discarded producers never have surviving dependents (their dependents are
younger and on the same thread, hence discarded too). -/
theorem producerCount_squash {st : MemDepUnitState} (h : Inv st)
    (n : InstSeqNum) (tid : ThreadID) {e : MemDepEntry} (he : e ∈ st.memDepHash)
    (hkeep : e.instSN ∉ squashRemovedSNs st n tid) :
    producerCount (squash st n tid).memDepHash e.instSN =
      producerCount st.memDepHash e.instSN := by
  have hriff : ∀ {q : MemDepEntry}, q ∈ st.memDepHash →
      (q.instSN ∈ squashRemovedSNs st n tid ↔ (q.tid = tid ∧ n < q.instSN)) :=
    fun hq => squashRemoved_iff h hq n tid
  obtain ⟨h1, h2, h3, h4, h5, h6, h7, h8, h9⟩ := h
  show producerCount ((st.memDepHash.filter
      (fun q => !decide (q.instSN ∈ squashRemovedSNs st n tid))).map
      (squashSever (squashRemovedSNs st n tid))) e.instSN = _
  unfold producerCount
  rw [List.countP_map]
  have hcong : List.countP
      ((fun p => !p.completed && decide (e.instSN ∈ p.dependInsts)) ∘
        squashSever (squashRemovedSNs st n tid))
      (st.memDepHash.filter
        (fun q => !decide (q.instSN ∈ squashRemovedSNs st n tid))) =
      List.countP (fun p => !p.completed && decide (e.instSN ∈ p.dependInsts))
      (st.memDepHash.filter
        (fun q => !decide (q.instSN ∈ squashRemovedSNs st n tid))) := by
    apply List.countP_congr
    intro q _
    simp only [Function.comp_apply, squashSever_completed, squashSever_dependInsts,
      Bool.and_eq_true, decide_eq_true_eq, List.mem_filter,
      Bool.not_eq_true', decide_eq_false_iff_not]
    constructor
    · rintro ⟨hc, hm, -⟩
      exact ⟨hc, hm⟩
    · rintro ⟨hc, hm⟩
      exact ⟨hc, hm, hkeep⟩
  rw [hcong, List.countP_filter]
  apply List.countP_congr
  intro q hq
  simp only [Bool.and_eq_true, decide_eq_true_eq, Bool.not_eq_true',
    decide_eq_false_iff_not]
  constructor
  · rintro ⟨⟨hc, hd⟩, -⟩
    exact ⟨hc, hd⟩
  · rintro ⟨hc, hd⟩
    refine ⟨⟨hc, hd⟩, ?_⟩
    intro hmem
    obtain ⟨htq, hltq⟩ := (hriff hq).1 hmem
    have hle : q.instSN ≤ e.instSN := h4 q hq e.instSN hd
    apply hkeep
    apply (hriff he).2
    constructor
    · rw [h8 e he, ← h8 q hq, htq]
    · exact Nat.lt_of_lt_of_le hltq hle

theorem Inv_squash {st : MemDepUnitState} (n : InstSeqNum) (tid : ThreadID)
    (h : Inv st) : Inv (squash st n tid) := by
  have hriff : ∀ {q : MemDepEntry}, q ∈ st.memDepHash →
      (q.instSN ∈ squashRemovedSNs st n tid ↔ (q.tid = tid ∧ n < q.instSN)) :=
    fun hq => squashRemoved_iff h hq n tid
  have hpcs : ∀ {q : MemDepEntry}, q ∈ st.memDepHash →
      q.instSN ∉ squashRemovedSNs st n tid →
      producerCount (squash st n tid).memDepHash q.instSN =
        producerCount st.memDepHash q.instSN :=
    fun hq hk => producerCount_squash h n tid hq hk
  obtain ⟨h1, h2, h3, h4, h5, h6, h7, h8, h9⟩ := h
  refine ⟨?_, ?_, ?_, ?_, ?_, ?_, ?_, ?_, ?_⟩
  · show (((st.memDepHash.filter
        (fun e => !decide (e.instSN ∈ squashRemovedSNs st n tid))).map
        (squashSever (squashRemovedSNs st n tid))).map (fun e => e.instSN)).Nodup
    rw [List.map_map]
    have heq : (st.memDepHash.filter
        (fun e => !decide (e.instSN ∈ squashRemovedSNs st n tid))).map
        ((fun e => e.instSN) ∘ squashSever (squashRemovedSNs st n tid)) =
        (st.memDepHash.filter
          (fun e => !decide (e.instSN ∈ squashRemovedSNs st n tid))).map
        (fun e => e.instSN) :=
      List.map_congr_left (fun e _ => rfl)
    rw [heq]
    have hsub : (st.memDepHash.filter
        (fun e => !decide (e.instSN ∈ squashRemovedSNs st n tid))).Sublist
        st.memDepHash := List.filter_sublist _
    exact h1.sublist (hsub.map (fun e => e.instSN))
  · intro e' he'
    rcases List.mem_map.1 he' with ⟨e, he, rfl⟩
    simpa using h2 e (List.mem_filter.1 he).1
  · intro e' he'
    rcases List.mem_map.1 he' with ⟨e, he, rfl⟩
    obtain ⟨her, hkp⟩ := List.mem_filter.1 he
    have hkeep : e.instSN ∉ squashRemovedSNs st n tid := by simpa using hkp
    show (squashSever (squashRemovedSNs st n tid) e).memDeps =
      (producerCount (squash st n tid).memDepHash
        (squashSever (squashRemovedSNs st n tid) e).instSN : Int)
    rw [squashSever_memDeps, squashSever_instSN, hpcs her hkeep]
    exact h3 e her
  · intro p' hp' c hc
    rcases List.mem_map.1 hp' with ⟨p, hp, rfl⟩
    rw [squashSever_instSN]
    rw [squashSever_dependInsts] at hc
    exact h4 p (List.mem_filter.1 hp).1 c (List.mem_filter.1 hc).1
  · intro e' he'
    rcases List.mem_map.1 he' with ⟨e, he, rfl⟩
    obtain ⟨her, hkp⟩ := List.mem_filter.1 he
    have hkeep : e.instSN ∉ squashRemovedSNs st n tid := by simpa using hkp
    rw [squashSever_instSN, squashSever_tid]
    show e.instSN ∈ (st.instList.set tid
      ((st.instList.getD tid []).filter (fun s => !decide (n < s)))).getD e.tid []
    by_cases hlen : tid < st.instList.length
    · by_cases ht : tid = e.tid
      · rw [← ht, getD_set_self _ _ _ _ hlen]
        apply List.mem_filter.2
        refine ⟨ht ▸ h5 e her, ?_⟩
        simp only [Bool.not_eq_true', decide_eq_false_iff_not]
        intro hlt
        exact hkeep ((hriff her).2 ⟨ht.symm, hlt⟩)
      · rw [getD_set_ne _ _ _ ht]
        exact h5 e her
    · rw [List.set_eq_of_length_le (Nat.le_of_not_lt hlen)]
      exact h5 e her
  · intro t sn' hsn'
    have hwit : ∃ e ∈ st.memDepHash,
        e.instSN = sn' ∧ e.tid = t ∧ e.instSN ∉ squashRemovedSNs st n tid := by
      by_cases hlen : tid < st.instList.length
      · by_cases ht : tid = t
        · subst ht
          rw [show (squash st n tid).instList = st.instList.set tid
              ((st.instList.getD tid []).filter (fun s => !decide (n < s))) from rfl,
            getD_set_self _ _ _ _ hlen] at hsn'
          obtain ⟨hold, hnlt⟩ := List.mem_filter.1 hsn'
          rcases h6 tid sn' hold with ⟨e, he, hke, hte⟩
          refine ⟨e, he, hke, hte, ?_⟩
          intro hmem
          obtain ⟨-, hlt⟩ := (hriff he).1 hmem
          rw [hke] at hlt
          simp only [Bool.not_eq_true', decide_eq_false_iff_not] at hnlt
          exact hnlt hlt
        · rw [show (squash st n tid).instList = st.instList.set tid
              ((st.instList.getD tid []).filter (fun s => !decide (n < s))) from rfl,
            getD_set_ne _ _ _ ht] at hsn'
          rcases h6 t sn' hsn' with ⟨e, he, hke, hte⟩
          refine ⟨e, he, hke, hte, ?_⟩
          intro hmem
          exact ht ((hte ▸ ((hriff he).1 hmem).1).symm)
      · rw [show (squash st n tid).instList = st.instList.set tid
            ((st.instList.getD tid []).filter (fun s => !decide (n < s))) from rfl,
          List.set_eq_of_length_le (Nat.le_of_not_lt hlen)] at hsn'
        rcases h6 t sn' hsn' with ⟨e, he, hke, hte⟩
        refine ⟨e, he, hke, hte, ?_⟩
        intro hmem
        have hR : squashRemovedSNs st n tid = [] := by
          unfold squashRemovedSNs
          rw [getD_eq_nil_of_le _ _ (Nat.le_of_not_lt hlen)]
          rfl
        rw [hR] at hmem
        cases hmem
    rcases hwit with ⟨e, he, hke, hte, hkeep⟩
    refine ⟨squashSever (squashRemovedSNs st n tid) e, ?_,
      by simpa using hke, by simpa using hte⟩
    apply List.mem_map_of_mem
    apply List.mem_filter.2
    exact ⟨he, by simpa using hkeep⟩
  · intro b hb
    have hb' : (b ∈ st.loadBarrierSNs ∧ b ∉ squashRemovedSNs st n tid) ∨
        (b ∈ st.storeBarrierSNs ∧ b ∉ squashRemovedSNs st n tid) := by
      rcases List.mem_append.1 hb with hm | hm
      · obtain ⟨hmm, hd⟩ := List.mem_filter.1 hm
        exact Or.inl ⟨hmm, by simpa using hd⟩
      · obtain ⟨hmm, hd⟩ := List.mem_filter.1 hm
        exact Or.inr ⟨hmm, by simpa using hd⟩
    have hbold : b ∈ st.loadBarrierSNs ++ st.storeBarrierSNs ∧
        b ∉ squashRemovedSNs st n tid := by
      rcases hb' with ⟨hm, hk⟩ | ⟨hm, hk⟩
      · exact ⟨List.mem_append_left _ hm, hk⟩
      · exact ⟨List.mem_append_right _ hm, hk⟩
    rcases h7 b hbold.1 with ⟨e, he, hke⟩
    refine ⟨squashSever (squashRemovedSNs st n tid) e, ?_, by simpa using hke⟩
    apply List.mem_map_of_mem
    apply List.mem_filter.2
    refine ⟨he, ?_⟩
    simp only [Bool.not_eq_true', decide_eq_false_iff_not]
    rw [hke]
    exact hbold.2
  · intro e' he'
    rcases List.mem_map.1 he' with ⟨e, he, rfl⟩
    rw [squashSever_tid]
    exact h8 e (List.mem_filter.1 he).1
  · show (st.instList.set tid _).length = O3MaxThreads
    rw [List.length_set]
    exact h9

/-! ## The invariant is inductive for the whole interface -/

theorem validB_insert_elim {st : MemDepUnitState} {inst : DynInst}
    (hv : (decide (inst.tid = st.id) && decide (inst.tid < O3MaxThreads) &&
      (allSNs st).all (fun s => decide (s < inst.seqNum))) = true) :
    inst.tid = st.id ∧ inst.tid < O3MaxThreads ∧ ∀ s ∈ allSNs st, s < inst.seqNum := by
  simp only [Bool.and_eq_true, decide_eq_true_eq, List.all_eq_true] at hv
  exact ⟨hv.1.1, hv.1.2, fun s hs => by simpa using hv.2 s hs⟩

theorem Inv_step {st : MemDepUnitState} {op : MemDepOp}
    (h : Inv st) (hv : validB st op = true) : Inv (step st op).1 := by
  cases op with
  | opInsert inst pred =>
    obtain ⟨ht, hl, hf⟩ := validB_insert_elim hv
    exact Inv_insertCoreState h ht hl hf
  | opInsertNonSpec inst =>
    obtain ⟨ht, hl, hf⟩ := validB_insert_elim hv
    exact Inv_insertCoreState h ht hl hf
  | opInsertBarrier inst =>
    obtain ⟨ht, hl, hf⟩ := validB_insert_elim hv
    refine Inv_insertBarrierSN (Inv_insertCoreState h ht hl hf) ?_
    exact ⟨insertedEntry st inst [],
      List.mem_append_right _ (List.mem_singleton.2 rfl), rfl⟩
  | opRegsReady sn => exact Inv_regsReadyOp sn h
  | opNonSpecReady sn => exact Inv_regsReadyOp sn h
  | opReschedule sn => exact Inv_reschedule sn h
  | opViolation s l => exact Inv_reschedule l h
  | opReplay => exact Inv_replayOp h
  | opComplete sn => exact Inv_completeInst sn h
  | opSquash n tid => exact Inv_squash n tid h
  | opIssue sn => exact h
  | opTakeOver => exact Inv_takeOverFrom h

theorem Inv_runState {st : MemDepUnitState} (h : Inv st) (ops : List MemDepOp)
    (hv : runValid st ops = true) : Inv (runState st ops) := by
  induction ops generalizing st with
  | nil => exact h
  | cons op ops ih =>
    simp only [runValid, Bool.and_eq_true] at hv
    exact ih (Inv_step h hv.1) hv.2

/-- Every reachable state satisfies the internal-consistency invariant. -/
theorem Reach_Inv {st : MemDepUnitState} (h : Reach st) : Inv st := by
  rcases h with ⟨tid0, ops, hv, hrun⟩
  rw [← hrun]
  exact Inv_runState (Inv_initState tid0) ops hv

/-! ## Demonstration runs used by the witnesses -/

/-- A store, sequence number 10, thread 0 (spec section 8 scenario). -/
def demoStore : DynInst :=
  { seqNum := 10, tid := 0, isLoad := false, isStore := true,
    isLoadBarrier := false, isStoreBarrier := false, readyRegs := false }

/-- A load, sequence number 11, thread 0, predicted dependent on the store. -/
def demoLoad : DynInst :=
  { seqNum := 11, tid := 0, isLoad := true, isStore := false,
    isLoadBarrier := false, isStoreBarrier := false, readyRegs := false }

/-- A load barrier, sequence number 20, thread 0. -/
def demoBarrier : DynInst :=
  { seqNum := 20, tid := 0, isLoad := false, isStore := false,
    isLoadBarrier := true, isStoreBarrier := false, readyRegs := false }

/-- A load, sequence number 21, thread 0, registers already available. -/
def demoLoad2 : DynInst :=
  { seqNum := 21, tid := 0, isLoad := true, isStore := false,
    isLoadBarrier := false, isStoreBarrier := false, readyRegs := true }

def demoOps : List MemDepOp :=
  [MemDepOp.opInsert demoStore none, MemDepOp.opInsert demoLoad (some 10)]

/-- State after inserting the store and the dependent load. -/
def demoState : MemDepUnitState := runState (initState 0) demoOps

/-- State after inserting only the store. -/
def demoState1 : MemDepUnitState :=
  runState (initState 0) [MemDepOp.opInsert demoStore none]

/-- State after inserting only the load barrier. -/
def demoBarrierState : MemDepUnitState :=
  runState (initState 0) [MemDepOp.opInsertBarrier demoBarrier]

/-- The registry entry of the demonstration load after both demo inserts:
one pending memory dependency on the store. -/
def demoLoadEntry : MemDepEntry :=
  { instSN := 11, tid := 0, isLoad := true, isStore := false,
    isLoadBarrier := false, isStoreBarrier := false, dependInsts := [],
    regsReady := false, memDeps := 1, completed := false, squashed := false }

/-- The registry entry of the demonstration store after both demo inserts:
the load is recorded as its dependent. -/
def demoStoreEntry : MemDepEntry :=
  { instSN := 10, tid := 0, isLoad := false, isStore := true,
    isLoadBarrier := false, isStoreBarrier := false, dependInsts := [11],
    regsReady := false, memDeps := 0, completed := false, squashed := false }

/-! ## The claims -/

/-- C1: for every reachable state of the unit and every consumer entry
tracked in the registry, the entry's pending-memory-dependency counter
(`MemDepEntry.memDeps`) equals the number of not-yet-completed producer
entries whose `dependInsts` list contains that consumer; the equality is
preserved by every public operation respecting the interface contract. -/
theorem C1_pending_count_invariant {st : MemDepUnitState} (h : Reach st) :
    (∀ e ∈ st.memDepHash,
      e.memDeps = (producerCount st.memDepHash e.instSN : Int)) ∧
    (∀ op : MemDepOp, validB st op = true →
      ∀ e ∈ (step st op).1.memDepHash,
        e.memDeps = (producerCount (step st op).1.memDepHash e.instSN : Int)) := by
  have hInv := Reach_Inv h
  refine ⟨hInv.2.2.1, ?_⟩
  intro op hv
  exact (Inv_step hInv hv).2.2.1

/-- Witness for C1 at the concrete spec-section-8 scenario state: the
blocked load's counter of one equals its number of live producers. -/
theorem C1_pending_count_invariant_witness :
    demoLoadEntry.memDeps =
      (producerCount demoState.memDepHash demoLoadEntry.instSN : Int) :=
  (C1_pending_count_invariant ⟨0, demoOps, by decide, rfl⟩).1
    demoLoadEntry (by decide)

/-- C7: `replay` signals exactly the content of the replay queue, in order
(hence each instruction once per occurrence), leaves the queue empty, and
changes nothing else in the unit state. -/
theorem C7_replay_drains_queue (st : MemDepUnitState) :
    (replayOp st).2 = st.instsToReplay ∧
    (replayOp st).1.instsToReplay = [] ∧
    (replayOp st).1.memDepHash = st.memDepHash ∧
    (replayOp st).1.instList = st.instList ∧
    (replayOp st).1.loadBarrierSNs = st.loadBarrierSNs ∧
    (replayOp st).1.storeBarrierSNs = st.storeBarrierSNs ∧
    (replayOp st).1.id = st.id :=
  ⟨rfl, rfl, rfl, rfl, rfl, rfl, rfl⟩

/-- C9: a freshly constructed dependency entry always starts with
`regsReady = false`, `memDeps = 0`, `completed = false`, `squashed = false`
(and an empty dependent list), so every instruction enters the unit
not-ready, with no memory dependencies, uncompleted and unsquashed. -/
theorem C9_fresh_entry_defaults (inst : DynInst) :
    (mkMemDepEntry inst).regsReady = false ∧
    (mkMemDepEntry inst).memDeps = 0 ∧
    (mkMemDepEntry inst).completed = false ∧
    (mkMemDepEntry inst).squashed = false ∧
    (mkMemDepEntry inst).dependInsts = [] :=
  ⟨rfl, rfl, rfl, rfl, rfl⟩

/-- C10: the per-thread order lists form a fixed-size array of
`O3MaxThreads` entries indexed directly by thread id; under the
precondition `tid < O3MaxThreads` the array access is in bounds, and
`squash` reads and writes exactly the cell of the given thread. -/
theorem C10_thread_id_bounds {st : MemDepUnitState} {tid : ThreadID}
    (n : InstSeqNum) (hlen : st.instList.length = O3MaxThreads)
    (hlt : tid < O3MaxThreads) :
    tid < st.instList.length ∧
    (st.instList.get? tid).isSome ∧
    (squash st n tid).instList.getD tid [] =
      (st.instList.getD tid []).filter (fun s => !decide (n < s)) := by
  have h1 : tid < st.instList.length := by rw [hlen]; exact hlt
  refine ⟨h1, ?_, ?_⟩
  · simp [List.get?_eq_getElem?, List.getElem?_eq_getElem h1]
  · exact getD_set_self _ _ _ _ h1

/-- Witness for C10: thread 1 of a freshly initialized unit. -/
theorem C10_thread_id_bounds_witness :
    (1 : ThreadID) < (initState 0).instList.length ∧
    ((initState 0).instList.get? 1).isSome ∧
    (squash (initState 0) 5 1).instList.getD 1 [] =
      ((initState 0).instList.getD 1 []).filter (fun s => !decide (5 < s)) :=
  C10_thread_id_bounds 5 (by decide) (by decide)

/-! ## Squash idempotence -/

theorem state_ext {s₁ s₂ : MemDepUnitState} (hid : s₁.id = s₂.id)
    (hh : s₁.memDepHash = s₂.memDepHash) (hil : s₁.instList = s₂.instList)
    (hr : s₁.instsToReplay = s₂.instsToReplay)
    (hlb : s₁.loadBarrierSNs = s₂.loadBarrierSNs)
    (hsb : s₁.storeBarrierSNs = s₂.storeBarrierSNs) : s₁ = s₂ := by
  cases s₁
  cases s₂
  simp only [MemDepUnitState.mk.injEq]
  exact ⟨hid, hh, hil, hr, hlb, hsb⟩

theorem squashSever_nil (e : MemDepEntry) : squashSever [] e = e := by
  show { e with dependInsts :=
    e.dependInsts.filter (fun c => !decide (c ∈ ([] : List InstSeqNum))) } = e
  have h : e.dependInsts.filter (fun c => !decide (c ∈ ([] : List InstSeqNum))) =
      e.dependInsts :=
    List.filter_eq_self.2 (fun a _ => by simp)
  rw [h]

/-- A second squash with the same arguments finds nothing left to remove. -/
theorem squashRemovedSNs_squash (st : MemDepUnitState) (n : InstSeqNum)
    (tid : ThreadID) : squashRemovedSNs (squash st n tid) n tid = [] := by
  unfold squashRemovedSNs
  by_cases hlen : tid < st.instList.length
  · rw [show (squash st n tid).instList = st.instList.set tid
        ((st.instList.getD tid []).filter (fun s => !decide (n < s))) from rfl,
      getD_set_self _ _ _ _ hlen]
    apply List.filter_eq_nil_iff.2
    intro a ha
    have h2 := (List.mem_filter.1 ha).2
    simp only [Bool.not_eq_true', decide_eq_false_iff_not] at h2
    simpa using h2
  · rw [show (squash st n tid).instList = st.instList.set tid
        ((st.instList.getD tid []).filter (fun s => !decide (n < s))) from rfl,
      List.set_eq_of_length_le (Nat.le_of_not_lt hlen),
      getD_eq_nil_of_le _ _ (Nat.le_of_not_lt hlen)]
    rfl

/-- C4: squash is idempotent: squashing twice with the same sequence number
and thread id yields exactly the state of a single squash (registry, order
lists, barrier sets, replay queue all agree). -/
theorem C4_squash_idempotent (st : MemDepUnitState) (n : InstSeqNum)
    (tid : ThreadID) : squash (squash st n tid) n tid = squash st n tid := by
  have hR := squashRemovedSNs_squash st n tid
  apply state_ext
  · rfl
  · show ((squash st n tid).memDepHash.filter
        (fun e => !decide (e.instSN ∈ squashRemovedSNs (squash st n tid) n tid))).map
        (squashSever (squashRemovedSNs (squash st n tid) n tid)) =
      (squash st n tid).memDepHash
    rw [hR]
    have hfl : (squash st n tid).memDepHash.filter
        (fun e => !decide (e.instSN ∈ ([] : List InstSeqNum))) =
        (squash st n tid).memDepHash :=
      List.filter_eq_self.2 (fun a _ => by simp)
    rw [hfl]
    have hmp : ((squash st n tid).memDepHash).map (squashSever []) =
        ((squash st n tid).memDepHash).map id :=
      List.map_congr_left (fun e _ => squashSever_nil e)
    rw [hmp, List.map_id]
  · show (squash st n tid).instList.set tid
        (((squash st n tid).instList.getD tid []).filter
          (fun s => !decide (n < s))) = (squash st n tid).instList
    by_cases hlen : tid < st.instList.length
    · have hget : (squash st n tid).instList.getD tid [] =
          (st.instList.getD tid []).filter (fun s => !decide (n < s)) :=
        getD_set_self _ _ _ _ hlen
      rw [hget]
      have hff : ((st.instList.getD tid []).filter
          (fun s => !decide (n < s))).filter (fun s => !decide (n < s)) =
          (st.instList.getD tid []).filter (fun s => !decide (n < s)) :=
        List.filter_eq_self.2 (fun a ha => (List.mem_filter.1 ha).2)
      rw [hff]
      show (st.instList.set tid _).set tid _ = st.instList.set tid _
      rw [List.set_set]
    · have hle := Nat.le_of_not_lt hlen
      have h1 : (squash st n tid).instList = st.instList := by
        show st.instList.set tid _ = st.instList
        exact List.set_eq_of_length_le hle
      rw [h1, List.set_eq_of_length_le hle]
  · show (squash st n tid).instsToReplay.filter
        (fun s => !decide (s ∈ squashRemovedSNs (squash st n tid) n tid)) = _
    rw [hR]
    exact List.filter_eq_self.2 (fun a _ => by simp)
  · show (squash st n tid).loadBarrierSNs.filter
        (fun s => !decide (s ∈ squashRemovedSNs (squash st n tid) n tid)) = _
    rw [hR]
    exact List.filter_eq_self.2 (fun a _ => by simp)
  · show (squash st n tid).storeBarrierSNs.filter
        (fun s => !decide (s ∈ squashRemovedSNs (squash st n tid) n tid)) = _
    rw [hR]
    exact List.filter_eq_self.2 (fun a _ => by simp)

/-! ## Readiness signaling -/

theorem regsReadyOp_of_find {st : MemDepUnitState} {sn : InstSeqNum}
    {e : MemDepEntry}
    (hf : st.memDepHash.find? (fun x => decide (x.instSN = sn)) = some e) :
    regsReadyOp st sn =
      (if readyToIssue { e with regsReady := true } then
        ({ st with memDepHash := regsReadySet sn st.memDepHash }, [sn])
      else
        ({ st with memDepHash := regsReadySet sn st.memDepHash }, [])) := by
  unfold regsReadyOp
  rw [hf]

/-- C5: an entry is signaled issue-ready iff `regsReady` is true, `memDeps`
is zero, and `squashed` is false (the shared `readyToIssue` guard of the
`moveToReady` path); the `regsReady` and `nonSpecInstReady` operations
signal the instruction exactly when, after setting `regsReady := true`, the
other two conditions hold, and the two operations are the same function. -/
theorem C5_ready_iff {st : MemDepUnitState} {sn : InstSeqNum} {e : MemDepEntry}
    (hf : findInHash st sn = some e) :
    (∀ x : MemDepEntry, readyToIssue x = true ↔
      (x.regsReady = true ∧ x.memDeps = 0 ∧ x.squashed = false)) ∧
    ((regsReadyOp st sn).2 = [sn] ↔ (e.memDeps = 0 ∧ e.squashed = false)) ∧
    ((regsReadyOp st sn).2 = [] ↔ ¬(e.memDeps = 0 ∧ e.squashed = false)) ∧
    nonSpecInstReadyOp st sn = regsReadyOp st sn := by
  have hf' : st.memDepHash.find? (fun x => decide (x.instSN = sn)) = some e := hf
  have hguard : readyToIssue { e with regsReady := true } = true ↔
      (e.memDeps = 0 ∧ e.squashed = false) := by
    unfold readyToIssue
    simp
  refine ⟨?_, ?_, ?_, rfl⟩
  · intro x
    unfold readyToIssue
    simp [and_assoc]
  · rw [regsReadyOp_of_find hf']
    by_cases hready : readyToIssue { e with regsReady := true } = true
    · rw [if_pos hready]
      simpa using hguard.1 hready
    · rw [if_neg hready]
      constructor
      · intro hsig
        cases hsig
      · intro hc
        exact absurd (hguard.2 hc) hready
  · rw [regsReadyOp_of_find hf']
    by_cases hready : readyToIssue { e with regsReady := true } = true
    · rw [if_pos hready]
      constructor
      · intro hsig
        cases hsig
      · intro hc
        exact absurd (hguard.1 hready) hc
    · rw [if_neg hready]
      constructor
      · intro _
        intro hc
        exact absurd (hguard.2 hc) hready
      · intro _
        rfl

/-- Witness for C5: the blocked load of the spec-section-8 scenario
(pending counter 1, so setting the registers-ready flag signals nothing). -/
theorem C5_ready_iff_witness :
    (∀ x : MemDepEntry, readyToIssue x = true ↔
      (x.regsReady = true ∧ x.memDeps = 0 ∧ x.squashed = false)) ∧
    ((regsReadyOp demoState 11).2 = [11] ↔
      (demoLoadEntry.memDeps = 0 ∧ demoLoadEntry.squashed = false)) ∧
    ((regsReadyOp demoState 11).2 = [] ↔
      ¬(demoLoadEntry.memDeps = 0 ∧ demoLoadEntry.squashed = false)) ∧
    nonSpecInstReadyOp demoState 11 = regsReadyOp demoState 11 :=
  C5_ready_iff (by decide)

/-! ## Completion effects -/

theorem completeInst_of_find {st : MemDepUnitState} {sn : InstSeqNum}
    {P : MemDepEntry}
    (hf : st.memDepHash.find? (fun e => decide (e.instSN = sn)) = some P) :
    completeInst st sn =
      (completeState st sn P,
       completeWoken (completeHash st.memDepHash sn P.dependInsts) P.dependInsts) := by
  unfold completeInst
  rw [hf]

/-- C2: completing a tracked producer sets its completed flag (on the
released entry), removes it from the registry, decrements `memDeps` by
exactly one on every registered entry of its `dependInsts` list (and on no
other entry), and signals exactly those dependents whose surviving entry
passes the shared `readyToIssue` guard — i.e. whose counter reached zero
with `regsReady` true — through the same `moveToReady` path as the
`regsReady` operation. -/
theorem C2_completeInst_effects {st : MemDepUnitState} {sn : InstSeqNum}
    {P : MemDepEntry} (hInv : Inv st) (hf : findInHash st sn = some P) :
    (∃ pe, completedEntry st sn = some pe ∧ pe.completed = true ∧
      pe.instSN = sn) ∧
    (∀ e2 ∈ (completeInst st sn).1.memDepHash, e2.instSN ≠ sn) ∧
    (∀ e ∈ st.memDepHash, e.instSN ≠ sn →
      ∃ e2 ∈ (completeInst st sn).1.memDepHash, e2.instSN = e.instSN ∧
        e2.memDeps = e.memDeps - (if e.instSN ∈ P.dependInsts then 1 else 0) ∧
        e2.regsReady = e.regsReady ∧ e2.squashed = e.squashed) ∧
    (∀ c, c ∈ (completeInst st sn).2 ↔
      (c ∈ P.dependInsts ∧ ∃ e2 ∈ (completeInst st sn).1.memDepHash,
        e2.instSN = c ∧ readyToIssue e2 = true)) := by
  have hf' : st.memDepHash.find? (fun x => decide (x.instSN = sn)) = some P := hf
  have hP : P ∈ st.memDepHash := List.mem_of_find?_eq_some hf'
  have hk : P.instSN = sn := by simpa using List.find?_some hf'
  have hInv2 := Inv_completeState hInv hP hk
  refine ⟨?_, ?_, ?_, ?_⟩
  · refine ⟨{ P with completed := true }, ?_, rfl, hk⟩
    unfold completedEntry
    rw [hf]
    rfl
  · intro e2 he2
    rw [completeInst_of_find hf'] at he2
    rcases List.mem_map.1 he2 with ⟨e, he, rfl⟩
    obtain ⟨-, hne⟩ := List.mem_filter.1 he
    simpa using hne
  · intro e he hne
    rw [completeInst_of_find hf']
    refine ⟨completeDecr P.dependInsts e, ?_, completeDecr_instSN _ e, ?_,
      completeDecr_regsReady _ e, completeDecr_squashed _ e⟩
    · exact List.mem_map_of_mem _ (List.mem_filter.2 ⟨he, by simpa using hne⟩)
    · exact completeDecr_memDeps _ e
  · intro c
    rw [completeInst_of_find hf']
    show c ∈ completeWoken (completeHash st.memDepHash sn P.dependInsts)
      P.dependInsts ↔ _
    unfold completeWoken
    rw [List.mem_filter]
    constructor
    · rintro ⟨hcd, hpred⟩
      refine ⟨hcd, ?_⟩
      cases hfind2 : (completeHash st.memDepHash sn P.dependInsts).find?
          (fun e => decide (e.instSN = c)) with
      | none =>
        rw [hfind2] at hpred
        cases hpred
      | some e2 =>
        rw [hfind2] at hpred
        exact ⟨e2, List.mem_of_find?_eq_some hfind2,
          by simpa using List.find?_some hfind2, hpred⟩
    · rintro ⟨hcd, e2, he2, hke2, hrdy⟩
      refine ⟨hcd, ?_⟩
      have hnd2 : ((completeHash st.memDepHash sn P.dependInsts).map
          (fun e => e.instSN)).Nodup := hInv2.1
      have hfind2 : (completeHash st.memDepHash sn P.dependInsts).find?
          (fun x => decide (x.instSN = e2.instSN)) = some e2 :=
        find?_key_of_mem hnd2 he2
      rw [hke2] at hfind2
      rw [hfind2]
      exact hrdy

/-- Witness for C2: completing the store of the spec-section-8 scenario. -/
theorem C2_completeInst_effects_witness :
    (∃ pe, completedEntry demoState 10 = some pe ∧ pe.completed = true ∧
      pe.instSN = 10) ∧
    (∀ e2 ∈ (completeInst demoState 10).1.memDepHash, e2.instSN ≠ 10) ∧
    (∀ e ∈ demoState.memDepHash, e.instSN ≠ 10 →
      ∃ e2 ∈ (completeInst demoState 10).1.memDepHash, e2.instSN = e.instSN ∧
        e2.memDeps = e.memDeps -
          (if e.instSN ∈ demoStoreEntry.dependInsts then 1 else 0) ∧
        e2.regsReady = e.regsReady ∧ e2.squashed = e.squashed) ∧
    (∀ c, c ∈ (completeInst demoState 10).2 ↔
      (c ∈ demoStoreEntry.dependInsts ∧
        ∃ e2 ∈ (completeInst demoState 10).1.memDepHash,
          e2.instSN = c ∧ readyToIssue e2 = true)) :=
  C2_completeInst_effects (Reach_Inv ⟨0, demoOps, by decide, rfl⟩) (by decide)

/-! ## Squash cutoff -/

/-- C3: after `squash n tid`, the registry holds, for thread `tid`, exactly
the previously present entries with sequence number at most `n` (entries of
other threads stay registered, and their order lists are untouched); each
removed entry is reported with its squashed flag set, is severed from every
surviving producer's `dependInsts` list, and its sequence number is gone
from both barrier sets and from the replay queue. -/
theorem C3_squash_cutoff {st : MemDepUnitState} (hInv : Inv st)
    (n : InstSeqNum) (tid : ThreadID) :
    (∀ e ∈ st.memDepHash,
      ((∃ e2 ∈ (squash st n tid).memDepHash,
        e2.instSN = e.instSN ∧ e2.tid = e.tid) ↔
       ¬(e.tid = tid ∧ n < e.instSN))) ∧
    (∀ e2 ∈ (squash st n tid).memDepHash,
      ∃ e ∈ st.memDepHash, e.instSN = e2.instSN ∧ e.tid = e2.tid) ∧
    (∀ r ∈ squashRemovedEntries st n tid,
      r.squashed = true ∧ r.tid = tid ∧ n < r.instSN) ∧
    (∀ e2 ∈ (squash st n tid).memDepHash, ∀ c ∈ e2.dependInsts,
      c ∉ squashRemovedSNs st n tid) ∧
    (∀ r ∈ squashRemovedSNs st n tid,
      r ∉ (squash st n tid).loadBarrierSNs ∧
      r ∉ (squash st n tid).storeBarrierSNs ∧
      r ∉ (squash st n tid).instsToReplay) ∧
    ((squash st n tid).instList.getD tid [] =
      (st.instList.getD tid []).filter (fun s => !decide (n < s))) ∧
    (∀ t : ThreadID, t ≠ tid →
      (squash st n tid).instList.getD t [] = st.instList.getD t []) := by
  have hriff : ∀ {q : MemDepEntry}, q ∈ st.memDepHash →
      (q.instSN ∈ squashRemovedSNs st n tid ↔ (q.tid = tid ∧ n < q.instSN)) :=
    fun hq => squashRemoved_iff hInv hq n tid
  have h1 := hInv.1
  refine ⟨?_, ?_, ?_, ?_, ?_, ?_, ?_⟩
  · intro e he
    constructor
    · rintro ⟨e2, he2, hke, hte⟩ ⟨htid, hlt⟩
      rcases List.mem_map.1 he2 with ⟨q, hq, rfl⟩
      obtain ⟨hqr, hqk⟩ := List.mem_filter.1 hq
      have hkeq : q.instSN = e.instSN := by simpa using hke
      have : q = e := key_inj h1 hqr he hkeq
      subst this
      simp only [Bool.not_eq_true', decide_eq_false_iff_not] at hqk
      exact hqk ((hriff hqr).2 ⟨htid, hlt⟩)
    · intro hn
      have hkeep : e.instSN ∉ squashRemovedSNs st n tid := by
        intro hmem
        exact hn ((hriff he).1 hmem)
      refine ⟨squashSever (squashRemovedSNs st n tid) e, ?_, rfl, rfl⟩
      exact List.mem_map_of_mem _
        (List.mem_filter.2 ⟨he, by simpa using hkeep⟩)
  · intro e2 he2
    rcases List.mem_map.1 he2 with ⟨q, hq, rfl⟩
    exact ⟨q, (List.mem_filter.1 hq).1, rfl, rfl⟩
  · intro r hr
    unfold squashRemovedEntries at hr
    rcases List.mem_map.1 hr with ⟨e, he, rfl⟩
    obtain ⟨her, hd⟩ := List.mem_filter.1 he
    have hmem : e.instSN ∈ squashRemovedSNs st n tid := by simpa using hd
    obtain ⟨htid, hlt⟩ := (hriff her).1 hmem
    exact ⟨rfl, htid, hlt⟩
  · intro e2 he2 c hc
    rcases List.mem_map.1 he2 with ⟨q, hq, rfl⟩
    rw [squashSever_dependInsts] at hc
    obtain ⟨-, hck⟩ := List.mem_filter.1 hc
    simpa using hck
  · intro r hrm
    refine ⟨?_, ?_, ?_⟩
    · intro hmem
      obtain ⟨-, hd⟩ := List.mem_filter.1 hmem
      simp only [Bool.not_eq_true', decide_eq_false_iff_not] at hd
      exact hd hrm
    · intro hmem
      obtain ⟨-, hd⟩ := List.mem_filter.1 hmem
      simp only [Bool.not_eq_true', decide_eq_false_iff_not] at hd
      exact hd hrm
    · intro hmem
      obtain ⟨-, hd⟩ := List.mem_filter.1 hmem
      simp only [Bool.not_eq_true', decide_eq_false_iff_not] at hd
      exact hd hrm
  · by_cases hlen : tid < st.instList.length
    · exact getD_set_self _ _ _ _ hlen
    · show (st.instList.set tid _).getD tid [] = _
      rw [List.set_eq_of_length_le (Nat.le_of_not_lt hlen),
        getD_eq_nil_of_le _ _ (Nat.le_of_not_lt hlen)]
      rfl
  · intro t ht
    exact getD_set_ne _ _ _ (fun hEq => ht hEq.symm)

/-- Witness for C3: squashing the spec-section-8 scenario at cutoff 10
discards exactly the younger load. -/
theorem C3_squash_cutoff_witness :
    (∀ e ∈ demoState.memDepHash,
      ((∃ e2 ∈ (squash demoState 10 0).memDepHash,
        e2.instSN = e.instSN ∧ e2.tid = e.tid) ↔
       ¬(e.tid = 0 ∧ 10 < e.instSN))) ∧
    (∀ e2 ∈ (squash demoState 10 0).memDepHash,
      ∃ e ∈ demoState.memDepHash, e.instSN = e2.instSN ∧ e.tid = e2.tid) ∧
    (∀ r ∈ squashRemovedEntries demoState 10 0,
      r.squashed = true ∧ r.tid = 0 ∧ 10 < r.instSN) ∧
    (∀ e2 ∈ (squash demoState 10 0).memDepHash, ∀ c ∈ e2.dependInsts,
      c ∉ squashRemovedSNs demoState 10 0) ∧
    (∀ r ∈ squashRemovedSNs demoState 10 0,
      r ∉ (squash demoState 10 0).loadBarrierSNs ∧
      r ∉ (squash demoState 10 0).storeBarrierSNs ∧
      r ∉ (squash demoState 10 0).instsToReplay) ∧
    ((squash demoState 10 0).instList.getD 0 [] =
      (demoState.instList.getD 0 []).filter (fun s => !decide (10 < s))) ∧
    (∀ t : ThreadID, t ≠ 0 →
      (squash demoState 10 0).instList.getD t [] =
        demoState.instList.getD t []) :=
  C3_squash_cutoff (Reach_Inv ⟨0, demoOps, by decide, rfl⟩) 10 0

/-! ## Predictor adapter tolerance -/

/-- C8: on insert, an edge to the predicted producer is created iff a live
(registered, not completed, not squashed) entry exists for the predicted
sequence number; a stale prediction is treated as no dependency and, with
no relevant barrier outstanding, leaves the new instruction memory-ready
immediately (`memDeps = 0`), while a live prediction with no barrier makes
`memDeps` exactly one. -/
theorem C8_predictor_edge {st : MemDepUnitState} {inst : DynInst}
    {s : InstSeqNum} (hInv : Inv st)
    (hv : validB st (MemDepOp.opInsert inst (some s)) = true) :
    ((∃ p ∈ (insert st inst (some s)).1.memDepHash,
        p.instSN = s ∧ inst.seqNum ∈ p.dependInsts) ↔
      (∃ p ∈ st.memDepHash, p.instSN = s ∧ p.completed = false ∧
        p.squashed = false)) ∧
    ((inst.isLoad = true → st.loadBarrierSNs = []) →
     (inst.isStore = true → st.storeBarrierSNs = []) →
     ((∀ p ∈ st.memDepHash, p.instSN ≠ s) →
        ∃ e2 ∈ (insert st inst (some s)).1.memDepHash,
          e2.instSN = inst.seqNum ∧ e2.memDeps = 0) ∧
     (∀ P ∈ st.memDepHash, P.instSN = s →
        ∃ e2 ∈ (insert st inst (some s)).1.memDepHash,
          e2.instSN = inst.seqNum ∧ e2.memDeps = 1)) := by
  obtain ⟨htid, hlt, hfresh⟩ := validB_insert_elim hv
  have hdeplt : ∀ p ∈ st.memDepHash, ∀ c ∈ p.dependInsts, c < inst.seqNum :=
    fun p hp c hc => hfresh _ (dep_mem_allSNs hp hc)
  have hscand : s ∈ insertCands st inst (some s) := by
    unfold insertCands
    exact List.mem_append_right _ (List.mem_singleton.2 rfl)
  constructor
  · constructor
    · rintro ⟨p, hp, hkp, hmem⟩
      rcases List.mem_append.1 hp with hm | hm
      · rcases List.mem_map.1 hm with ⟨q, hq, rfl⟩
        have hkq : q.instSN = s := by simpa using hkp
        rcases (insertLink_mem_dep _ _ _ _).1 hmem with hold | ⟨hkeepq, -⟩
        · exact absurd (hdeplt q hq _ hold) (Nat.lt_irrefl _)
        · unfold prodKeep at hkeepq
          simp only [Bool.and_eq_true, Bool.not_eq_true'] at hkeepq
          exact ⟨q, hq, hkq, hkeepq.1.2, hkeepq.2⟩
      · rw [List.mem_singleton] at hm
        subst hm
        rw [insertedEntry_dependInsts] at hmem
        cases hmem
    · rintro ⟨P, hP, hk, hc, hsq⟩
      have hkeep : prodKeep (insertCands st inst (some s)) P = true := by
        unfold prodKeep
        simp only [Bool.and_eq_true, Bool.not_eq_true', decide_eq_true_eq]
        exact ⟨⟨hk ▸ hscand, hc⟩, hsq⟩
      refine ⟨insertLink inst.seqNum (insertCands st inst (some s)) P,
        List.mem_append_left _ (List.mem_map_of_mem _ hP), by simpa using hk, ?_⟩
      exact (insertLink_mem_dep _ _ _ _).2 (Or.inr ⟨hkeep, rfl⟩)
  · intro hlb hsb
    have hcand : ∀ x, x ∈ insertCands st inst (some s) → x = s := by
      intro x hx
      unfold insertCands at hx
      rcases List.mem_append.1 hx with hm | hm
      · rcases List.mem_append.1 hm with hm1 | hm1
        · split at hm1
          · rename_i hL
            rw [hlb hL] at hm1
            cases hm1
          · cases hm1
        · split at hm1
          · rename_i hS
            rw [hsb hS] at hm1
            cases hm1
          · cases hm1
      · simpa using hm
    constructor
    · intro hstale
      have hcount : st.memDepHash.countP
          (prodKeep (insertCands st inst (some s))) = 0 := by
        apply List.countP_eq_zero.2
        intro p hp
        unfold prodKeep
        simp only [Bool.and_eq_true, decide_eq_true_eq, not_and]
        rintro ⟨hmemc, -⟩
        exact absurd (hcand _ hmemc) (hstale p hp)
      refine ⟨insertedEntry st inst (insertCands st inst (some s)),
        List.mem_append_right _ (List.mem_singleton.2 rfl), rfl, ?_⟩
      rw [insertedEntry_memDeps, hcount]
      rfl
    · intro P hP hk
      have hflags := hInv.2.1 P hP
      have hcount : st.memDepHash.countP
          (prodKeep (insertCands st inst (some s))) = 1 := by
        have hcong : st.memDepHash.countP
            (prodKeep (insertCands st inst (some s))) =
            st.memDepHash.countP
            (fun p => (!p.completed && !p.squashed) &&
              decide (p.instSN = P.instSN)) := by
          apply List.countP_congr
          intro p hp
          unfold prodKeep
          simp only [Bool.and_eq_true, Bool.not_eq_true', decide_eq_true_eq]
          constructor
          · rintro ⟨⟨hmemc, hc⟩, hsq⟩
            exact ⟨⟨hc, hsq⟩, by rw [hcand _ hmemc, hk]⟩
          · rintro ⟨⟨hc, hsq⟩, hkeq⟩
            exact ⟨⟨by rw [hkeq, hk]; exact hscand, hc⟩, hsq⟩
        rw [hcong, countP_keyed hInv.1 hP (fun p => !p.completed && !p.squashed)]
        simp [hflags.1, hflags.2]
      refine ⟨insertedEntry st inst (insertCands st inst (some s)),
        List.mem_append_right _ (List.mem_singleton.2 rfl), rfl, ?_⟩
      rw [insertedEntry_memDeps, hcount]
      rfl

/-- Witness for C8: the load predicted dependent on the live store. -/
theorem C8_predictor_edge_witness :
    ((∃ p ∈ (insert demoState1 demoLoad (some 10)).1.memDepHash,
        p.instSN = 10 ∧ demoLoad.seqNum ∈ p.dependInsts) ↔
      (∃ p ∈ demoState1.memDepHash, p.instSN = 10 ∧ p.completed = false ∧
        p.squashed = false)) ∧
    ((demoLoad.isLoad = true → demoState1.loadBarrierSNs = []) →
     (demoLoad.isStore = true → demoState1.storeBarrierSNs = []) →
     ((∀ p ∈ demoState1.memDepHash, p.instSN ≠ 10) →
        ∃ e2 ∈ (insert demoState1 demoLoad (some 10)).1.memDepHash,
          e2.instSN = demoLoad.seqNum ∧ e2.memDeps = 0) ∧
     (∀ P ∈ demoState1.memDepHash, P.instSN = 10 →
        ∃ e2 ∈ (insert demoState1 demoLoad (some 10)).1.memDepHash,
          e2.instSN = demoLoad.seqNum ∧ e2.memDeps = 1)) :=
  C8_predictor_edge
    (Reach_Inv ⟨0, [MemDepOp.opInsert demoStore none], by decide, rfl⟩)
    (by decide)

/-! ## Barrier gating -/

/-- Operations that do not target instruction `L` with a reschedule, a
violation, or a (forbidden) reuse of its sequence number.  `reschedule` and
`violation` presuppose that their argument has already issued, which a
barrier-blocked instruction cannot have done, and sequence numbers are
never reused. -/
def noReschedOf (L : InstSeqNum) (op : MemDepOp) : Bool :=
  match op with
  | .opReschedule sn => !decide (sn = L)
  | .opViolation _ loadSN => !decide (loadSN = L)
  | .opInsert i _ => !decide (i.seqNum = L)
  | .opInsertNonSpec i => !decide (i.seqNum = L)
  | .opInsertBarrier i => !decide (i.seqNum = L)
  | _ => true

/-- The gating invariant carried along a run: the unit is consistent, the
barrier `b` is outstanding, the blocked load `L` is not queued for replay,
and as long as `L` is registered it hangs on an edge from `b`'s entry. -/
def Blocked (b L : InstSeqNum) (st : MemDepUnitState) : Prop :=
  Inv st ∧ b ∈ st.loadBarrierSNs ∧ L ∉ st.instsToReplay ∧
  (∀ eL ∈ st.memDepHash, eL.instSN = L →
    ∃ eb ∈ st.memDepHash, eb.instSN = b ∧ L ∈ eb.dependInsts)

/-- An entry with a live uncompleted producer cannot have a zero pending
counter. -/
theorem not_ready_of_producer {st : MemDepUnitState} {b L : InstSeqNum}
    (hInv : Inv st)
    (heb : ∃ eb ∈ st.memDepHash, eb.instSN = b ∧ L ∈ eb.dependInsts)
    {e2 : MemDepEntry} (he2 : e2 ∈ st.memDepHash) (hk : e2.instSN = L) :
    e2.memDeps ≠ 0 := by
  rcases heb with ⟨eb, hebm, -, hLdep⟩
  have hflags := hInv.2.1 eb hebm
  have hc := hInv.2.2.1 e2 he2
  have hpos : 0 < producerCount st.memDepHash L :=
    List.countP_pos_iff.2 ⟨eb, hebm, by simp [hflags.1, hLdep]⟩
  rw [hc, hk]
  intro hz
  have h0 : producerCount st.memDepHash L = 0 := by exact_mod_cast hz
  omega

theorem insertCore_snd_not_mem {st : MemDepUnitState} {inst : DynInst}
    {cands : List InstSeqNum} {L : InstSeqNum} (hne : inst.seqNum ≠ L) :
    L ∉ (insertCore st inst cands).2 := by
  intro hmem
  unfold insertCore at hmem
  by_cases hr : readyToIssue (insertedEntry st inst cands) = true
  · rw [if_pos hr] at hmem
    rw [List.mem_singleton] at hmem
    exact hne hmem.symm
  · rw [if_neg hr] at hmem
    cases hmem

theorem insertCore_edge_pres {b L : InstSeqNum} {st : MemDepUnitState}
    {inst : DynInst} {cands : List InstSeqNum}
    (hedge : ∀ eL ∈ st.memDepHash, eL.instSN = L →
      ∃ eb ∈ st.memDepHash, eb.instSN = b ∧ L ∈ eb.dependInsts)
    (hne : inst.seqNum ≠ L) :
    ∀ eL ∈ (insertCoreState st inst cands).memDepHash, eL.instSN = L →
      ∃ eb ∈ (insertCoreState st inst cands).memDepHash,
        eb.instSN = b ∧ L ∈ eb.dependInsts := by
  intro eL heL hkL
  rcases List.mem_append.1 heL with hm | hm
  · rcases List.mem_map.1 hm with ⟨e, he, rfl⟩
    have hkey : e.instSN = L := by simpa using hkL
    rcases hedge e he hkey with ⟨eb, hebm, hkb, hLdep⟩
    exact ⟨insertLink inst.seqNum cands eb,
      List.mem_append_left _ (List.mem_map_of_mem _ hebm), by simpa using hkb,
      (insertLink_mem_dep _ _ _ _).2 (Or.inl hLdep)⟩
  · rw [List.mem_singleton] at hm
    subst hm
    exact absurd (by simpa using hkL) hne

/-- One step of the gating argument: every operation that keeps the barrier
outstanding and does not reschedule or re-insert `L` keeps `L` blocked and
does not signal it. -/
theorem Blocked_step {b L : InstSeqNum} {st : MemDepUnitState} {op : MemDepOp}
    (h : Blocked b L st) (hv : validB st op = true)
    (hnt : noReschedOf L op = true)
    (hbp : b ∈ (step st op).1.loadBarrierSNs) :
    Blocked b L (step st op).1 ∧ L ∉ (step st op).2 := by
  obtain ⟨hInv, hb, hq, hedge⟩ := h
  have hInv' : Inv (step st op).1 := Inv_step hInv hv
  cases op with
  | opInsert inst pred =>
    have hne : inst.seqNum ≠ L := by simpa [noReschedOf] using hnt
    exact ⟨⟨hInv', hb, hq, insertCore_edge_pres hedge hne⟩,
      insertCore_snd_not_mem hne⟩
  | opInsertNonSpec inst =>
    have hne : inst.seqNum ≠ L := by simpa [noReschedOf] using hnt
    exact ⟨⟨hInv', hb, hq, insertCore_edge_pres hedge hne⟩,
      insertCore_snd_not_mem hne⟩
  | opInsertBarrier inst =>
    have hne : inst.seqNum ≠ L := by simpa [noReschedOf] using hnt
    exact ⟨⟨hInv', hbp, hq, insertCore_edge_pres hedge hne⟩,
      insertCore_snd_not_mem hne⟩
  | opRegsReady sn =>
    show Blocked b L (regsReadyOp st sn).1 ∧ L ∉ (regsReadyOp st sn).2
    cases hf : st.memDepHash.find? (fun x => decide (x.instSN = sn)) with
    | none =>
      have hshape : regsReadyOp st sn = (st, []) := by
        unfold regsReadyOp
        rw [hf]
      rw [hshape]
      exact ⟨⟨hInv, hb, hq, hedge⟩, fun hmem => by cases hmem⟩
    | some e =>
      have hshape := regsReadyOp_of_find hf
      have hedge' : ∀ eL ∈ (regsReadyOp st sn).1.memDepHash, eL.instSN = L →
          ∃ eb ∈ (regsReadyOp st sn).1.memDepHash,
            eb.instSN = b ∧ L ∈ eb.dependInsts := by
        intro eL heL hkL
        have hhash : (regsReadyOp st sn).1.memDepHash =
            regsReadySet sn st.memDepHash := by
          rw [hshape]
          split <;> rfl
        rw [hhash] at heL
        rcases List.mem_map.1 heL with ⟨e1, he1, rfl⟩
        have hk1 : e1.instSN = L := by
          rw [← hkL]
          split <;> rfl
        rcases hedge e1 he1 hk1 with ⟨eb, hebm, hkb, hLdep⟩
        rw [hhash]
        refine ⟨if decide (eb.instSN = sn) then { eb with regsReady := true }
          else eb, List.mem_map_of_mem _ hebm, ?_, ?_⟩
        · split <;> simpa using hkb
        · split <;> simpa using hLdep
      refine ⟨⟨hInv', ?_, ?_, hedge'⟩, ?_⟩
      · rw [hshape]
        split <;> exact hb
      · rw [hshape]
        split <;> exact hq
      · intro hmem
        rw [hshape] at hmem
        by_cases hr : readyToIssue { e with regsReady := true } = true
        · rw [if_pos hr] at hmem
          rw [List.mem_singleton] at hmem
          subst hmem
          have hke : e.instSN = L := by simpa using List.find?_some hf
          have hmd := not_ready_of_producer hInv
            (hedge e (List.mem_of_find?_eq_some hf) hke)
            (List.mem_of_find?_eq_some hf) hke
          unfold readyToIssue at hr
          simp only [Bool.and_eq_true, decide_eq_true_eq] at hr
          exact hmd hr.1.2
        · rw [if_neg hr] at hmem
          cases hmem
  | opNonSpecReady sn =>
    show Blocked b L (regsReadyOp st sn).1 ∧ L ∉ (regsReadyOp st sn).2
    cases hf : st.memDepHash.find? (fun x => decide (x.instSN = sn)) with
    | none =>
      have hshape : regsReadyOp st sn = (st, []) := by
        unfold regsReadyOp
        rw [hf]
      rw [hshape]
      exact ⟨⟨hInv, hb, hq, hedge⟩, fun hmem => by cases hmem⟩
    | some e =>
      have hshape := regsReadyOp_of_find hf
      have hedge' : ∀ eL ∈ (regsReadyOp st sn).1.memDepHash, eL.instSN = L →
          ∃ eb ∈ (regsReadyOp st sn).1.memDepHash,
            eb.instSN = b ∧ L ∈ eb.dependInsts := by
        intro eL heL hkL
        have hhash : (regsReadyOp st sn).1.memDepHash =
            regsReadySet sn st.memDepHash := by
          rw [hshape]
          split <;> rfl
        rw [hhash] at heL
        rcases List.mem_map.1 heL with ⟨e1, he1, rfl⟩
        have hk1 : e1.instSN = L := by
          rw [← hkL]
          split <;> rfl
        rcases hedge e1 he1 hk1 with ⟨eb, hebm, hkb, hLdep⟩
        rw [hhash]
        refine ⟨if decide (eb.instSN = sn) then { eb with regsReady := true }
          else eb, List.mem_map_of_mem _ hebm, ?_, ?_⟩
        · split <;> simpa using hkb
        · split <;> simpa using hLdep
      have hInvr : Inv (regsReadyOp st sn).1 := Inv_regsReadyOp sn hInv
      refine ⟨⟨hInvr, ?_, ?_, hedge'⟩, ?_⟩
      · rw [hshape]
        split <;> exact hb
      · rw [hshape]
        split <;> exact hq
      · intro hmem
        rw [hshape] at hmem
        by_cases hr : readyToIssue { e with regsReady := true } = true
        · rw [if_pos hr] at hmem
          rw [List.mem_singleton] at hmem
          subst hmem
          have hke : e.instSN = L := by simpa using List.find?_some hf
          have hmd := not_ready_of_producer hInv
            (hedge e (List.mem_of_find?_eq_some hf) hke)
            (List.mem_of_find?_eq_some hf) hke
          unfold readyToIssue at hr
          simp only [Bool.and_eq_true, decide_eq_true_eq] at hr
          exact hmd hr.1.2
        · rw [if_neg hr] at hmem
          cases hmem
  | opReschedule sn =>
    have hne : sn ≠ L := by simpa [noReschedOf] using hnt
    refine ⟨⟨hInv', hb, ?_, hedge⟩, fun hmem => by cases hmem⟩
    intro hmem
    rcases List.mem_append.1 hmem with hm | hm
    · exact hq hm
    · rw [List.mem_singleton] at hm
      exact hne hm.symm
  | opViolation s l =>
    have hne : l ≠ L := by simpa [noReschedOf] using hnt
    refine ⟨⟨hInv', hb, ?_, hedge⟩, fun hmem => by cases hmem⟩
    intro hmem
    rcases List.mem_append.1 hmem with hm | hm
    · exact hq hm
    · rw [List.mem_singleton] at hm
      exact hne hm.symm
  | opReplay =>
    refine ⟨⟨hInv', hb, ?_, hedge⟩, hq⟩
    intro hmem
    cases hmem
  | opComplete sn =>
    show Blocked b L (completeInst st sn).1 ∧ L ∉ (completeInst st sn).2
    cases hf : st.memDepHash.find? (fun x => decide (x.instSN = sn)) with
    | none =>
      have hshape : completeInst st sn = (st, []) := by
        unfold completeInst
        rw [hf]
      rw [hshape]
      exact ⟨⟨hInv, hb, hq, hedge⟩, fun hmem => by cases hmem⟩
    | some P =>
      have hshape := completeInst_of_find hf
      have hbp2 : b ∈ (completeInst st sn).1.loadBarrierSNs := hbp
      have hbne : b ≠ sn := by
        rw [hshape] at hbp2
        obtain ⟨-, hd⟩ := List.mem_filter.1 hbp2
        simpa using hd
      have hedge' : ∀ eL ∈ (completeInst st sn).1.memDepHash, eL.instSN = L →
          ∃ eb ∈ (completeInst st sn).1.memDepHash,
            eb.instSN = b ∧ L ∈ eb.dependInsts := by
        intro eL heL hkL
        rw [hshape] at heL ⊢
        rcases List.mem_map.1 heL with ⟨e1, he1, rfl⟩
        have hk1 : e1.instSN = L := by simpa using hkL
        rcases hedge e1 (List.mem_filter.1 he1).1 hk1 with ⟨eb, hebm, hkb, hLdep⟩
        refine ⟨completeDecr P.dependInsts eb, ?_, by simpa using hkb,
          by simpa using hLdep⟩
        apply List.mem_map_of_mem
        apply List.mem_filter.2
        refine ⟨hebm, ?_⟩
        simp only [Bool.not_eq_true', decide_eq_false_iff_not]
        intro hc
        exact hbne (hkb ▸ hc)
      refine ⟨⟨hInv', ?_, ?_, hedge'⟩, ?_⟩
      · exact hbp
      · rw [hshape]
        exact hq
      · intro hmem
        rw [hshape] at hmem
        unfold completeWoken at hmem
        obtain ⟨-, hpred⟩ := List.mem_filter.1 hmem
        cases hfind2 : (completeHash st.memDepHash sn P.dependInsts).find?
            (fun e => decide (e.instSN = L)) with
        | none =>
          rw [hfind2] at hpred
          cases hpred
        | some e2 =>
          rw [hfind2] at hpred
          have he2m : e2 ∈ (completeInst st sn).1.memDepHash := by
            rw [hshape]
            exact List.mem_of_find?_eq_some hfind2
          have hk2 : e2.instSN = L := by simpa using List.find?_some hfind2
          have hmd := not_ready_of_producer hInv' (hedge' e2 he2m hk2) he2m hk2
          unfold readyToIssue at hpred
          simp only [Bool.and_eq_true, decide_eq_true_eq] at hpred
          exact hmd hpred.1.2
  | opSquash n t =>
    have hbnr : b ∉ squashRemovedSNs st n t := by
      obtain ⟨-, hd⟩ := List.mem_filter.1 hbp
      simpa using hd
    have hedge' : ∀ eL ∈ (squash st n t).memDepHash, eL.instSN = L →
        ∃ eb ∈ (squash st n t).memDepHash,
          eb.instSN = b ∧ L ∈ eb.dependInsts := by
      intro eL heL hkL
      rcases List.mem_map.1 heL with ⟨e1, he1, rfl⟩
      obtain ⟨he1r, hkp1⟩ := List.mem_filter.1 he1
      have hk1 : e1.instSN = L := by simpa using hkL
      have hLnr : L ∉ squashRemovedSNs st n t := by
        rw [← hk1]
        simpa using hkp1
      rcases hedge e1 he1r hk1 with ⟨eb, hebm, hkb, hLdep⟩
      refine ⟨squashSever (squashRemovedSNs st n t) eb, ?_, by simpa using hkb, ?_⟩
      · apply List.mem_map_of_mem
        apply List.mem_filter.2
        refine ⟨hebm, ?_⟩
        simp only [Bool.not_eq_true', decide_eq_false_iff_not]
        rw [hkb]
        exact hbnr
      · rw [squashSever_dependInsts]
        apply List.mem_filter.2
        exact ⟨hLdep, by simpa using hLnr⟩
    refine ⟨⟨hInv', hbp, ?_, hedge'⟩, fun hmem => by cases hmem⟩
    intro hmem
    obtain ⟨hm, -⟩ := List.mem_filter.1 hmem
    exact hq hm
  | opIssue sn =>
    exact ⟨⟨hInv, hb, hq, hedge⟩, fun hmem => by cases hmem⟩
  | opTakeOver =>
    cases hbp

/-- The gating invariant survives a whole run in which the barrier stays
outstanding and `L` is never rescheduled or re-inserted, so `L` is never
signaled. -/
theorem Blocked_run {b L : InstSeqNum} {st : MemDepUnitState}
    {ops : List MemDepOp}
    (h : Blocked b L st) (hv : runValid st ops = true)
    (hnt : ∀ op ∈ ops, noReschedOf L op = true)
    (hbs : ∀ k, k ≤ ops.length →
      b ∈ (runState st (ops.take k)).loadBarrierSNs) :
    L ∉ runSignals st ops := by
  induction ops generalizing st with
  | nil =>
    intro hmem
    cases hmem
  | cons op ops ih =>
    simp only [runValid, Bool.and_eq_true] at hv
    have hbp : b ∈ (step st op).1.loadBarrierSNs := by
      have h1 := hbs 1 (Nat.succ_le_succ (Nat.zero_le _))
      simpa [runState] using h1
    obtain ⟨hB, hsig⟩ := Blocked_step h hv.1 (hnt op (List.mem_cons_self op ops)) hbp
    intro hmem
    rcases List.mem_append.1 hmem with hm | hm
    · exact hsig hm
    · refine ih hB hv.2 (fun o ho => hnt o (List.mem_cons_of_mem _ ho)) ?_ hm
      intro k hk
      have h2 := hbs (k + 1) (Nat.succ_le_succ hk)
      simpa [runState] using h2

/-- Establishment: inserting a load while a load barrier is outstanding
links it to the barrier entry and does not signal it. -/
theorem Blocked_insert {st : MemDepUnitState} {inst : DynInst}
    {pred : Option InstSeqNum} {b : InstSeqNum}
    (hInv : Inv st) (hv : validB st (MemDepOp.opInsert inst pred) = true)
    (hLoad : inst.isLoad = true) (hb : b ∈ st.loadBarrierSNs) :
    Blocked b inst.seqNum (insert st inst pred).1 ∧
      inst.seqNum ∉ (insert st inst pred).2 := by
  obtain ⟨htid, hlt, hfresh⟩ := validB_insert_elim hv
  have hInv' : Inv (insert st inst pred).1 := Inv_insertCoreState hInv htid hlt hfresh
  rcases hInv.2.2.2.2.2.2.1 b (List.mem_append_left _ hb) with ⟨eb, hebm, hkb⟩
  have hbc : b ∈ insertCands st inst pred := by
    unfold insertCands
    refine List.mem_append_left _ (List.mem_append_left _ ?_)
    rw [if_pos hLoad]
    exact hb
  have hkeepb : prodKeep (insertCands st inst pred) eb = true := by
    unfold prodKeep
    have hfl := hInv.2.1 eb hebm
    simp only [Bool.and_eq_true, Bool.not_eq_true', decide_eq_true_eq]
    exact ⟨⟨hkb ▸ hbc, hfl.1⟩, hfl.2⟩
  have hcountpos : 0 < st.memDepHash.countP (prodKeep (insertCands st inst pred)) :=
    List.countP_pos_iff.2 ⟨eb, hebm, hkeepb⟩
  refine ⟨⟨hInv', hb, ?_, ?_⟩, ?_⟩
  · intro hmem
    exact absurd (hfresh _ (replay_mem_allSNs hmem)) (Nat.lt_irrefl _)
  · intro eL heL hkL
    refine ⟨insertLink inst.seqNum (insertCands st inst pred) eb,
      List.mem_append_left _ (List.mem_map_of_mem _ hebm), by simpa using hkb, ?_⟩
    exact (insertLink_mem_dep _ _ _ _).2 (Or.inr ⟨hkeepb, rfl⟩)
  · intro hmem
    have hmem2 : inst.seqNum ∈
        (if readyToIssue (insertedEntry st inst (insertCands st inst pred))
          then [inst.seqNum] else []) := hmem
    by_cases hr : readyToIssue (insertedEntry st inst (insertCands st inst pred)) = true
    · unfold readyToIssue at hr
      simp only [Bool.and_eq_true, decide_eq_true_eq] at hr
      have hmd := hr.1.2
      rw [insertedEntry_memDeps] at hmd
      have h0 : st.memDepHash.countP (prodKeep (insertCands st inst pred)) = 0 := by
        exact_mod_cast hmd
      omega
    · rw [if_neg hr] at hmem2
      cases hmem2

/-- C6: a load inserted while a load barrier is outstanding is never
signaled issue-ready — neither at insertion time nor during any subsequent
contract-respecting call sequence in which the barrier's sequence number
stays in the load-barrier set and the load is not rescheduled, made the
subject of a violation, or re-inserted. -/
theorem C6_barrier_gating {st : MemDepUnitState} {inst : DynInst}
    {pred : Option InstSeqNum} {b : InstSeqNum} {ops : List MemDepOp}
    (hInv : Inv st)
    (hv : validB st (MemDepOp.opInsert inst pred) = true)
    (hLoad : inst.isLoad = true)
    (hb : b ∈ st.loadBarrierSNs)
    (hOps : runValid (insert st inst pred).1 ops = true)
    (hnt : ∀ op ∈ ops, noReschedOf inst.seqNum op = true)
    (hbs : ∀ k, k ≤ ops.length →
      b ∈ (runState (insert st inst pred).1 (ops.take k)).loadBarrierSNs) :
    inst.seqNum ∉ (insert st inst pred).2 ∧
    inst.seqNum ∉ runSignals (insert st inst pred).1 ops := by
  obtain ⟨hB, hs0⟩ := Blocked_insert hInv hv hLoad hb
  exact ⟨hs0, Blocked_run hB hOps hnt hbs⟩

/-- Witness for C6: a ready-registered load inserted behind a load
barrier is not signaled by a subsequent `regsReady`. -/
theorem C6_barrier_gating_witness :
    demoLoad2.seqNum ∉ (insert demoBarrierState demoLoad2 none).2 ∧
    demoLoad2.seqNum ∉ runSignals (insert demoBarrierState demoLoad2 none).1
      [MemDepOp.opRegsReady 21] :=
  C6_barrier_gating (b := 20)
    (Reach_Inv ⟨0, [MemDepOp.opInsertBarrier demoBarrier], by decide, rfl⟩)
    (by decide) (by decide) (by decide) (by decide) (by decide) (by decide)

end MemDep
